import Mathlib

/-!
Verification development for the qoi-fast encoder core (`src/encode.rs`).

The encoder state machine, its constructors (`Encoder::new`, `Encoder::new_raw`),
the per-layout dispatch (`encode_impl_all`), the buffer entry points
(`encode_to_buf`, `encode_to_vec`) and the free function `encode_max_len` are
translated from `src/encode.rs`.  The crate modules that `encode.rs` uses but
that are not part of the source tree (`pixel.rs`, `header.rs`, `types.rs`,
`utils.rs`, and the decoder) are modelled from the specification; each such
definition carries a doc comment starting with "Modelled from the spec".

Machine integers are modelled as `Nat` with explicit `% 256` where u8 wrapping
matters and an explicit 64-bit `USIZE_MAX` where usize saturation matters.
-/

deriving instance DecidableEq for Except

set_option maxRecDepth 100000

namespace Qoi

/-- Size of the 14-byte QOI header (`QOI_HEADER_SIZE`). -/
def QOI_HEADER_SIZE : Nat := 14

/-- The 8-byte end-of-stream padding (`QOI_PADDING`). -/
def QOI_PADDING : List Nat := [0, 0, 0, 0, 0, 0, 0, 1]

/-- Size of the padding (`QOI_PADDING_SIZE`). -/
def QOI_PADDING_SIZE : Nat := 8

/-- Opcode tag `OP_INDEX` (`00xxxxxx`). -/
def QOI_OP_INDEX : Nat := 0x00

/-- Opcode tag `OP_DIFF` (`01xxxxxx`). -/
def QOI_OP_DIFF : Nat := 0x40

/-- Opcode tag `OP_LUMA` (`10xxxxxx`). -/
def QOI_OP_LUMA : Nat := 0x80

/-- Opcode tag `OP_RUN` (`11xxxxxx`). -/
def QOI_OP_RUN : Nat := 0xc0

/-- Opcode byte `OP_RGB` (`11111110`). -/
def QOI_OP_RGB : Nat := 0xfe

/-- Opcode byte `OP_RGBA` (`11111111`). -/
def QOI_OP_RGBA : Nat := 0xff

/-- Modelled from the spec: the implementation cap on `width * height` (§3);
`consts.rs` is not in the source tree. -/
def QOI_PIXELS_MAX : Nat := 400000000

/-- Maximum value of the platform index type, modelled as 64-bit. -/
def USIZE_MAX : Nat := 2 ^ 64 - 1

/-- Error taxonomy of the crate (§4.7); `error.rs` is not in the source tree,
variants and payloads are modelled from the spec. -/
inductive Error where
  | InvalidMagic
  | InvalidChannels (channels : Nat)
  | InvalidColorSpace (colorspace : Nat)
  | ImageTooLarge (width height : Nat)
  | EmptyImage
  | InvalidImageLength (size width height : Nat)
  | InvalidStride (stride : Nat)
  | OutputBufferTooSmall (size required : Nat)
  | UnexpectedBufferEnd
  | InvalidPadding
deriving DecidableEq, Repr

/-- Boolean success test for `Except`. -/
def isOkE {α : Type} (e : Except Error α) : Bool :=
  match e with
  | .ok _ => true
  | .error _ => false

/-- Modelled from the spec: a pixel value with four 8-bit channels (§3);
`pixel.rs` is not in the source tree.  `Pixel<3>` is represented with its
virtual alpha channel fixed at `0xff` ("In 3-channel mode a is fixed at
0xFF"), which the 3-channel read adapters never touch. -/
@[ext]
structure Pix where
  r : Nat
  g : Nat
  b : Nat
  a : Nat
deriving DecidableEq, Repr

/-- Modelled from the spec: the index hash
`(r*3 + g*5 + b*7 + a*11) mod 64` (§3). -/
def Pix.hash_index (p : Pix) : Nat :=
  (p.r * 3 + p.g * 5 + p.b * 7 + p.a * 11) % 64

/-- Modelled from the spec: `Pixel::update_rgb` sets r, g, b and keeps a. -/
def Pix.update_rgb (p : Pix) (r g b : Nat) : Pix :=
  { p with r := r, g := g, b := b }

/-- Modelled from the spec: `Pixel::update_rgba` sets all four channels. -/
def Pix.update_rgba (_p : Pix) (r g b a : Nat) : Pix :=
  ⟨r, g, b, a⟩

/-- Modelled from the spec: `Pixel::<3>::read` copies three source bytes into
r, g, b (the virtual alpha is untouched). -/
def Pix.read3 (p : Pix) (c : List Nat) : Pix :=
  { p with r := c.getD 0 0, g := c.getD 1 0, b := c.getD 2 0 }

/-- Modelled from the spec: `Pixel::<4>::read` copies four source bytes. -/
def Pix.read4 (c : List Nat) : Pix :=
  ⟨c.getD 0 0, c.getD 1 0, c.getD 2 0, c.getD 3 0⟩

/-- Modelled from the spec: `Pixel::with_a`; on the 3-channel representation
this writes the virtual alpha (which the encoder only ever sets to `0xff`). -/
def Pix.with_a (p : Pix) (v : Nat) : Pix :=
  { p with a := v }

/-- Modelled from the spec: `Pixel::as_rgba(alpha)` — the 4-channel view,
the identity for 4-channel pixels, alpha-filling for 3-channel ones (§3).
`n4` tells whether the pixel is a `Pixel<4>`. -/
def Pix.as_rgba (n4 : Bool) (p : Pix) (alpha : Nat) : Pix :=
  if n4 then p else { p with a := alpha }

/-- The ten recognized raw source layouts (`RawChannels`, §3). -/
inductive RawChannels where
  | Rgb
  | Bgr
  | Rgba
  | Argb
  | Bgra
  | Abgr
  | Rgbx
  | Xrgb
  | Bgrx
  | Xbgr
deriving DecidableEq, Repr

/-- Modelled from the spec: bytes per source pixel of each raw layout
(3, 3, 4, 4, 4, 4, 4, 4, 4, 4); `types.rs` is not in the source tree. -/
def RawChannels.bytes_per_pixel : RawChannels → Nat
  | .Rgb => 3
  | .Bgr => 3
  | _ => 4

/-- Modelled from the spec: the stored QOI channels field is 3 if the layout
has no alpha (`Rgb, Bgr, Rgbx, Xrgb, Bgrx, Xbgr`), else 4 (§3);
this is `impl From<RawChannels> for Channels` in `types.rs`. -/
def rawToChannels : RawChannels → Nat
  | .Rgba | .Argb | .Bgra | .Abgr => 4
  | _ => 3

/-- Modelled from the spec: `impl From<Channels> for RawChannels` — the
canonical layout for a channel count (`types.rs` missing). -/
def channelsToRaw (c : Nat) : RawChannels :=
  if c = 4 then .Rgba else .Rgb

/-- QOI opcodes in symbolic form; used as an abstraction layer over the byte
stream emitted by the encoder.  `run len` stands for `OP_RUN` repeating the
previous pixel `len` times; the field layouts follow §4.1. -/
inductive Op where
  | run (len : Nat)
  | index (h : Nat)
  | diff (dr2 dg2 db2 : Nat)
  | luma (dg32 dr8 db8 : Nat)
  | rgb (r g b : Nat)
  | rgba (r g b a : Nat)
deriving DecidableEq, Repr

/-- Serialization of one opcode to bytes, following the byte patterns of §4.1
(for in-range fields the bit-ors of the source coincide with these sums). -/
def Op.bytes : Op → List Nat
  | .run n => [QOI_OP_RUN + (n - 1)]
  | .index h => [QOI_OP_INDEX + h]
  | .diff a b c => [QOI_OP_DIFF + 16 * a + 4 * b + c]
  | .luma g rr bb => [QOI_OP_LUMA + g, 16 * rr + bb]
  | .rgb r g b => [QOI_OP_RGB, r, g, b]
  | .rgba r g b a => [QOI_OP_RGBA, r, g, b, a]

/-- Serialization of a list of opcodes. -/
def opsBytes (ops : List Op) : List Nat :=
  ops.flatMap Op.bytes

/-- Modelled from the spec: per-pixel opcode selection (§4.5); `pixel.rs`
(`Pixel::encode_into`) is not in the source tree.  Deltas are mod 256; case 4
emits `OP_RGB` for 3 channels and `OP_RGBA` for 4 channels (reached there
when `da == 0` but the rgb deltas fit neither `OP_DIFF` nor `OP_LUMA`). -/
def opOfPixel (n4 : Bool) (px px_prev : Pix) : Op :=
  let dr := (px.r + 256 - px_prev.r) % 256
  let dg := (px.g + 256 - px_prev.g) % 256
  let db := (px.b + 256 - px_prev.b) % 256
  let da := (px.a + 256 - px_prev.a) % 256
  if n4 = true ∧ da ≠ 0 then
    .rgba px.r px.g px.b px.a
  else if (dr + 2) % 256 < 4 ∧ (dg + 2) % 256 < 4 ∧ (db + 2) % 256 < 4 then
    .diff ((dr + 2) % 256) ((dg + 2) % 256) ((db + 2) % 256)
  else if (dg + 32) % 256 < 64 ∧ (dr + 256 - dg + 8) % 256 < 16 ∧
      (db + 256 - dg + 8) % 256 < 16 then
    .luma ((dg + 32) % 256) ((dr + 256 - dg + 8) % 256) ((db + 256 - dg + 8) % 256)
  else if n4 = true then
    .rgba px.r px.g px.b px.a
  else
    .rgb px.r px.g px.b

/-- Modelled from the spec: the bytes `Pixel::encode_into` writes for one
pixel (§4.5, byte patterns §4.1). -/
def Pix.encode_into (n4 : Bool) (px px_prev : Pix) : List Nat :=
  (opOfPixel n4 px px_prev).bytes

/-- Pointwise update of an index table. -/
def upd (t : Nat → Pix) (i : Nat) (v : Pix) : Nat → Pix :=
  fun j => if j = i then v else t j

/-- The encoder's running state in `encode_impl`: the index table (an array of
`Pixel<4>` initialized to `{0,0,0,0}`), `px_prev`, `hash_prev`, the run
counter, the reused pixel variable `px`, and the `index_allowed` flag. -/
structure EncState where
  index : Nat → Pix
  px_prev : Pix
  hash_prev : Nat
  run : Nat
  px : Pix
  index_allowed : Bool

/-- Initial encoder state (`encode_impl` lines 29–34): zeroed index table,
`px_prev = Pixel::new().with_a(0xff)`, `hash_prev = px_prev.hash_index()`,
`run = 0`, `px = Pixel::new().with_a(0xff)`, `index_allowed = false`. -/
def encInit : EncState :=
  { index := fun _ => ⟨0, 0, 0, 0⟩
  , px_prev := ⟨0, 0, 0, 255⟩
  , hash_prev := Pix.hash_index ⟨0, 0, 0, 255⟩
  , run := 0
  , px := ⟨0, 0, 0, 255⟩
  , index_allowed := false }

/-- The per-pixel loop of `encode_impl` (lines 38–80), at the opcode level:
processes the list of per-pixel byte chunks, threading the state; `i` is the
global pixel counter and `n` the total pixel count (`n_pixels`), so the
last-pixel test is `i = n - 1`.  Produced in parallel with the byte-level
`encLoopB` below; `encLoopB_ok` proves the two agree. -/
def encLoopOps (n4 : Bool) (rf : Pix → List Nat → Pix) (n : Nat) :
    EncState → Nat → List (List Nat) → EncState × List Op
  | st, _i, [] => (st, [])
  | st, i, c :: rest =>
    let px := rf st.px c
    if px = st.px_prev then
      let run := st.run + 1
      if run = 62 ∨ i = n - 1 then
        let res := encLoopOps n4 rf n { st with px := px, run := 0 } (i + 1) rest
        (res.1, Op.run run :: res.2)
      else
        encLoopOps n4 rf n { st with px := px, run := run } (i + 1) rest
    else
      let flush : List Op :=
        if st.run ≠ 0 then
          [if st.run = 1 ∧ st.index_allowed = true then Op.index st.hash_prev
           else Op.run st.run]
        else []
      let px_rgba := px.as_rgba n4 255
      let h := px_rgba.hash_index
      if st.index h = px_rgba then
        let res := encLoopOps n4 rf n ⟨st.index, px, h, 0, px, true⟩ (i + 1) rest
        (res.1, flush ++ Op.index h :: res.2)
      else
        let res :=
          encLoopOps n4 rf n ⟨upd st.index h px_rgba, px, h, 0, px, true⟩ (i + 1) rest
        (res.1, flush ++ opOfPixel n4 px st.px_prev :: res.2)

/-- Modelled from the spec: byte sink state.  `rem = some r` is the
slice-backed `BytesMut` with `r` bytes of remaining capacity (bounds-checked,
fails with `OutputBufferTooSmall`, §9); `rem = none` is the unbounded
streaming writer.  `out` collects the bytes written so far. -/
structure Buf where
  rem : Option Nat
  out : List Nat
deriving DecidableEq, Repr

/-- Modelled from the spec: `write_many` (and `write_one` as the singleton
case) on a byte sink (§9). -/
def wr (bs : List Nat) (b : Buf) : Except Error Buf :=
  match b.rem with
  | none => .ok ⟨none, b.out ++ bs⟩
  | some r =>
    if bs.length ≤ r then .ok ⟨some (r - bs.length), b.out ++ bs⟩
    else .error (.OutputBufferTooSmall b.out.length (b.out.length + bs.length))

/-- The per-pixel loop of `encode_impl` (lines 38–80) at the byte level,
writing through the sink exactly at the source's write sites. -/
def encLoopB (n4 : Bool) (rf : Pix → List Nat → Pix) (n : Nat) :
    Buf → EncState → Nat → List (List Nat) → Except Error (Buf × EncState)
  | buf, st, _i, [] => .ok (buf, st)
  | buf, st, i, c :: rest =>
    let px := rf st.px c
    if px = st.px_prev then
      let run := st.run + 1
      if run = 62 ∨ i = n - 1 then
        match wr [QOI_OP_RUN ||| (run - 1)] buf with
        | .error e => .error e
        | .ok buf2 => encLoopB n4 rf n buf2 { st with px := px, run := 0 } (i + 1) rest
      else
        encLoopB n4 rf n buf { st with px := px, run := run } (i + 1) rest
    else
      match
        (if st.run ≠ 0 then
          wr [if st.run = 1 ∧ st.index_allowed = true then QOI_OP_INDEX ||| st.hash_prev
              else QOI_OP_RUN ||| (st.run - 1)] buf
         else .ok buf) with
      | .error e => .error e
      | .ok buf2 =>
        let px_rgba := px.as_rgba n4 255
        let h := px_rgba.hash_index
        if st.index h = px_rgba then
          match wr [QOI_OP_INDEX ||| h] buf2 with
          | .error e => .error e
          | .ok buf3 => encLoopB n4 rf n buf3 ⟨st.index, px, h, 0, px, true⟩ (i + 1) rest
        else
          match wr (Pix.encode_into n4 px st.px_prev) buf2 with
          | .error e => .error e
          | .ok buf3 =>
            encLoopB n4 rf n buf3 ⟨upd st.index h px_rgba, px, h, 0, px, true⟩ (i + 1) rest

/-- Fuelled worker for `chunksExact` (structural recursion so that concrete
inputs evaluate by `decide`). -/
def chunksExactGo {α : Type} : Nat → Nat → List α → List (List α)
  | 0, _, _ => []
  | f + 1, n, l =>
    if 0 < n ∧ n ≤ l.length then l.take n :: chunksExactGo f n (l.drop n)
    else []

/-- `slice::chunks_exact(n)`: maximal list of consecutive length-`n` chunks;
a shorter remainder is not yielded. -/
def chunksExact {α : Type} (n : Nat) (l : List α) : List (List α) :=
  chunksExactGo (l.length + 1) n l

/-- The pixel chunks `encode_impl` iterates over (lines 39–41): rows are
`data.chunks_exact(stride).take(height)`, each row restricted to its first
`width * R` bytes and split into `R`-byte pixel chunks. -/
def pixelChunks (stride r w h : Nat) (data : List Nat) : List (List Nat) :=
  ((chunksExact stride data).take h).flatMap
    (fun row => chunksExact r (row.take (w * r)))

/-- `encode_impl` (lines 19–84): run the per-pixel loop over the extracted
chunks, append the 8-byte padding, and return the number of bytes written
together with the final sink. -/
def encodeImpl (n4 : Bool) (rf : Pix → List Nat → Pix) (buf : Buf)
    (data : List Nat) (w h stride r : Nat) : Except Error (Nat × Buf) :=
  match encLoopB n4 rf (w * h) buf encInit 0 (pixelChunks stride r w h data) with
  | .error e => .error e
  | .ok (buf2, _st) =>
    match wr QOI_PADDING buf2 with
    | .error e => .error e
    | .ok buf3 => .ok (buf3.out.length - buf.out.length, buf3)

/-- The QOI header record (§3). -/
structure Header where
  width : Nat
  height : Nat
  channels : Nat
  colorspace : Nat
deriving DecidableEq, Repr

/-- `Header::n_pixels`. -/
def Header.n_pixels (hd : Header) : Nat :=
  hd.width * hd.height

/-- Modelled from the spec: `Header::try_new` validation (§3, §4.2);
`header.rs` is not in the source tree. -/
def Header.try_new (w h c cs : Nat) : Except Error Header :=
  if w = 0 ∨ h = 0 then .error .EmptyImage
  else if QOI_PIXELS_MAX < w * h then .error (.ImageTooLarge w h)
  else if c ≠ 3 ∧ c ≠ 4 then .error (.InvalidChannels c)
  else if cs ≠ 0 ∧ cs ≠ 1 then .error (.InvalidColorSpace cs)
  else .ok ⟨w, h, c, cs⟩

/-- Big-endian serialization of a 32-bit value. -/
def be32 (v : Nat) : List Nat :=
  [v / 2 ^ 24 % 256, v / 2 ^ 16 % 256, v / 2 ^ 8 % 256, v % 256]

/-- Modelled from the spec: `Header::encode` — magic "qoif", big-endian
width and height, channels, colorspace (§3). -/
def Header.encode (hd : Header) : List Nat :=
  [113, 111, 105, 102] ++ be32 hd.width ++ be32 hd.height ++ [hd.channels, hd.colorspace]

/-- Modelled from the spec: `Header::encode_max_len`, the buffer-size bound
`14 + w*h*(channels+1) + 8` (§4.3, §6); `header.rs` is not in the source
tree. -/
def Header.encode_max_len (hd : Header) : Nat :=
  QOI_HEADER_SIZE + hd.n_pixels * (hd.channels + 1) + QOI_PADDING_SIZE

/-- `usize::saturating_mul` on the 64-bit model. -/
def satMul (a b : Nat) : Nat :=
  min (a * b) USIZE_MAX

/-- usize addition; `none` models the overflow (which panics in debug builds
and wraps in release builds). -/
def addUsize (a b : Nat) : Option Nat :=
  if a + b ≤ USIZE_MAX then some (a + b) else none

/-- The free function `encode_max_len` (encode.rs lines 90–97):
`QOI_HEADER_SIZE + n_pixels.saturating_mul(channels) + n_pixels +
QOI_PADDING_SIZE` with `n_pixels = width.saturating_mul(height)`; the two
multiplications saturate, the three additions are unchecked usize adds. -/
def encode_max_len (w h c : Nat) : Option Nat :=
  let np := satMul w h
  (addUsize QOI_HEADER_SIZE (satMul np c)).bind
    (fun x => (addUsize x np).bind (fun y => addUsize y QOI_PADDING_SIZE))

/-- The `Encoder` struct (encode.rs lines 117–122). -/
structure Encoder where
  data : List Nat
  stride : Nat
  raw_channels : RawChannels
  header : Header
deriving DecidableEq, Repr

/-- Modelled from the spec: `Channels::try_from(u8)` (`types.rs` missing) —
accepts 3 and 4, otherwise `InvalidChannels` carrying the given byte. -/
def channelsTryFrom (c : Nat) : Except Error Nat :=
  if c = 3 ∨ c = 4 then .ok c else .error (.InvalidChannels c)

/-- `Encoder::new` (encode.rs lines 132–145): infer the channel count as
`size / n_pixels`, require the product to match exactly, clamp with
`.min(0xff)` before `Channels::try_from`, and derive the canonical layout
and stride. -/
def Encoder.new (data : List Nat) (w h : Nat) : Except Error Encoder :=
  match Header.try_new w h 3 0 with
  | .error e => .error e
  | .ok hd =>
    let size := data.length
    let n_channels := size / hd.n_pixels
    if hd.n_pixels * n_channels ≠ size then
      .error (.InvalidImageLength size w h)
    else
      match channelsTryFrom (min n_channels 255) with
      | .error e => .error e
      | .ok ch =>
        let rc := channelsToRaw ch
        .ok ⟨data, w * rc.bytes_per_pixel, rc, { hd with channels := ch }⟩

/-- `Encoder::new_raw` (encode.rs lines 151–168), with the length condition
exactly as written in the source:
`stride * (height - 1) + width * bytes_per_pixel < data.len()` is the
rejection test. -/
def Encoder.new_raw (data : List Nat) (w h stride : Nat) (rc : RawChannels) :
    Except Error Encoder :=
  match Header.try_new w h (rawToChannels rc) 0 with
  | .error e => .error e
  | .ok hd =>
    if stride < w * rc.bytes_per_pixel then .error (.InvalidStride stride)
    else if stride * (h - 1) + w * rc.bytes_per_pixel < data.length then
      .error (.InvalidImageLength data.length w h)
    else .ok ⟨data, stride, rc, hd⟩

/-- `Encoder::required_buf_len` (encode.rs lines 196–198). -/
def Encoder.required_buf_len (e : Encoder) : Nat :=
  e.header.encode_max_len

/-- `Encoder::encode_impl_all` (encode.rs lines 239–291): dispatch on the raw
layout to `encode_impl::<_, N, R>` with the layout's pixel-read closure.
Each branch mirrors the source, including `Xbgr` running with `N = 4`
(line 286) while the other alpha-less layouts run with `N = 3`. -/
def Encoder.encode_impl_all (e : Encoder) (buf : Buf) : Except Error (Nat × Buf) :=
  let w := e.header.width
  let h := e.header.height
  let s := e.stride
  match e.raw_channels with
  | .Rgb => encodeImpl false (fun p c => p.read3 c) buf e.data w h s 3
  | .Bgr =>
    encodeImpl false (fun p c => p.update_rgb (c.getD 2 0) (c.getD 1 0) (c.getD 0 0))
      buf e.data w h s 3
  | .Rgba => encodeImpl true (fun _p c => Pix.read4 c) buf e.data w h s 4
  | .Argb =>
    encodeImpl true
      (fun p c => p.update_rgba (c.getD 1 0) (c.getD 2 0) (c.getD 3 0) (c.getD 0 0))
      buf e.data w h s 4
  | .Rgbx => encodeImpl false (fun p c => p.read3 (c.take 3)) buf e.data w h s 4
  | .Xrgb =>
    encodeImpl false (fun p c => p.update_rgb (c.getD 1 0) (c.getD 2 0) (c.getD 3 0))
      buf e.data w h s 4
  | .Bgra =>
    encodeImpl true
      (fun p c => p.update_rgba (c.getD 2 0) (c.getD 1 0) (c.getD 0 0) (c.getD 3 0))
      buf e.data w h s 4
  | .Abgr =>
    encodeImpl true
      (fun p c => p.update_rgba (c.getD 3 0) (c.getD 2 0) (c.getD 1 0) (c.getD 0 0))
      buf e.data w h s 4
  | .Bgrx =>
    encodeImpl false (fun p c => p.update_rgb (c.getD 2 0) (c.getD 1 0) (c.getD 0 0))
      buf e.data w h s 4
  | .Xbgr =>
    encodeImpl true (fun p c => p.update_rgb (c.getD 3 0) (c.getD 2 0) (c.getD 1 0))
      buf e.data w h s 4

/-- `Encoder::encode_to_buf` (encode.rs lines 204–214): check the buffer size
up front, copy the 14-byte header, run `encode_impl_all` on the tail.  The
pair returned is (result, final buffer contents); on the size check the
buffer is returned untouched, on an inner error the contents past the header
are left as the spec leaves them (undefined, §7). -/
def Encoder.encode_to_buf (e : Encoder) (buf : List Nat) :
    (Except Error Nat) × List Nat :=
  let required := e.required_buf_len
  if buf.length < required then
    (.error (.OutputBufferTooSmall buf.length required), buf)
  else
    let hb := e.header.encode
    match e.encode_impl_all ⟨some (buf.length - QOI_HEADER_SIZE), []⟩ with
    | .error er => (.error er, hb ++ buf.drop QOI_HEADER_SIZE)
    | .ok (n, buf2) =>
      (.ok (QOI_HEADER_SIZE + n),
       hb ++ buf2.out ++ buf.drop (QOI_HEADER_SIZE + buf2.out.length))

/-- `Encoder::encode_to_vec` (encode.rs lines 219–224): allocate
`required_buf_len` zero bytes, encode, truncate to the bytes written. -/
def Encoder.encode_to_vec (e : Encoder) : Except Error (List Nat) :=
  let out := List.replicate e.required_buf_len 0
  match e.encode_to_buf out with
  | (.error er, _) => .error er
  | (.ok n, buf) => .ok (buf.take n)

/-- Free function `encode_to_vec` (encode.rs lines 112–114). -/
def encode_to_vec (data : List Nat) (w h : Nat) : Except Error (List Nat) :=
  match Encoder.new data w h with
  | .error e => .error e
  | .ok enc => enc.encode_to_vec

/-- Modelled from the spec: the decoder's running state (§3, §4.6) — index
table (initialized to `{0,0,0,0}`), previous pixel (initially
`{0,0,0,255}`), run counter. -/
structure DecState where
  index : Nat → Pix
  px : Pix
  run : Nat

/-- Modelled from the spec: initial decoder state (§3). -/
def decInit : DecState :=
  ⟨fun _ => ⟨0, 0, 0, 0⟩, ⟨0, 0, 0, 255⟩, 0⟩

/-- Modelled from the spec: the decoder loop (§4.6).  `k` counts the pixels
still to emit.  Each iteration emits exactly one pixel: a pending run emits
the previous pixel; otherwise one opcode byte is read and dispatched on the
two-bit tag, with `OP_RGB`/`OP_RGBA` singled out of the `11` tag; the index
table is stored to after `OP_DIFF`, `OP_LUMA`, `OP_RGB`, `OP_RGBA` but not
after `OP_INDEX` or `OP_RUN`.  Returns the decoded pixels and the remaining
input. -/
def decodeLoop : DecState → List Nat → Nat → Except Error (List Pix × List Nat)
  | _st, bytes, 0 => .ok ([], bytes)
  | st, bytes, k + 1 =>
    if 0 < st.run then
      match decodeLoop { st with run := st.run - 1 } bytes k with
      | .error e => .error e
      | .ok (ps, rest) => .ok (st.px :: ps, rest)
    else
      match bytes with
      | [] => .error .UnexpectedBufferEnd
      | b :: bs =>
        if b < 64 then
          let p := st.index b
          match decodeLoop { st with px := p } bs k with
          | .error e => .error e
          | .ok (ps, rest) => .ok (p :: ps, rest)
        else if b < 128 then
          let p : Pix :=
            ⟨(st.px.r + b / 16 % 4 + 254) % 256, (st.px.g + b / 4 % 4 + 254) % 256,
             (st.px.b + b % 4 + 254) % 256, st.px.a⟩
          match decodeLoop ⟨upd st.index p.hash_index p, p, 0⟩ bs k with
          | .error e => .error e
          | .ok (ps, rest) => .ok (p :: ps, rest)
        else if b < 192 then
          match bs with
          | [] => .error .UnexpectedBufferEnd
          | b2 :: bs2 =>
            let p : Pix :=
              ⟨(st.px.r + b % 64 + b2 / 16 + 216) % 256, (st.px.g + b % 64 + 224) % 256,
               (st.px.b + b % 64 + b2 % 16 + 216) % 256, st.px.a⟩
            match decodeLoop ⟨upd st.index p.hash_index p, p, 0⟩ bs2 k with
            | .error e => .error e
            | .ok (ps, rest) => .ok (p :: ps, rest)
        else if b = 254 then
          match bs with
          | r :: g :: bb :: bs3 =>
            let p : Pix := ⟨r, g, bb, st.px.a⟩
            match decodeLoop ⟨upd st.index p.hash_index p, p, 0⟩ bs3 k with
            | .error e => .error e
            | .ok (ps, rest) => .ok (p :: ps, rest)
          | _ => .error .UnexpectedBufferEnd
        else if b = 255 then
          match bs with
          | r :: g :: bb :: a :: bs4 =>
            let p : Pix := ⟨r, g, bb, a⟩
            match decodeLoop ⟨upd st.index p.hash_index p, p, 0⟩ bs4 k with
            | .error e => .error e
            | .ok (ps, rest) => .ok (p :: ps, rest)
          | _ => .error .UnexpectedBufferEnd
        else
          match decodeLoop { st with run := b % 64 } bs k with
          | .error e => .error e
          | .ok (ps, rest) => .ok (st.px :: ps, rest)

/-- Big-endian read of a 32-bit value from the head of a byte list. -/
def readBe32 (l : List Nat) : Nat :=
  l.getD 0 0 * 2 ^ 24 + l.getD 1 0 * 2 ^ 16 + l.getD 2 0 * 2 ^ 8 + l.getD 3 0

/-- Modelled from the spec: header decoding and validation (§4.2) — exact
magic, channels in {3,4}, colorspace in {0,1}, nonzero dimensions, image-size
cap.  Returns the header and the remaining bytes. -/
def decodeHeader (bytes : List Nat) : Except Error (Header × List Nat) :=
  if bytes.length < QOI_HEADER_SIZE then .error .UnexpectedBufferEnd
  else if bytes.take 4 ≠ [113, 111, 105, 102] then .error .InvalidMagic
  else
    let w := readBe32 (bytes.drop 4)
    let h := readBe32 (bytes.drop 8)
    let c := bytes.getD 12 0
    let cs := bytes.getD 13 0
    if c ≠ 3 ∧ c ≠ 4 then .error (.InvalidChannels c)
    else if cs ≠ 0 ∧ cs ≠ 1 then .error (.InvalidColorSpace cs)
    else if w = 0 ∨ h = 0 then .error .EmptyImage
    else if QOI_PIXELS_MAX < w * h then .error (.ImageTooLarge w h)
    else .ok (⟨w, h, c, cs⟩, bytes.drop QOI_HEADER_SIZE)

/-- Modelled from the spec: write one decoded pixel in the output layout for
the stored channel count (canonical order; alpha dropped for 3). -/
def writePix (c : Nat) (p : Pix) : List Nat :=
  if c = 4 then [p.r, p.g, p.b, p.a] else [p.r, p.g, p.b]

/-- Modelled from the spec: `decode_to_vec` (§4.6, §6) — parse and validate
the header, decode `n_pixels` pixels, require the remaining input to start
with the 8-byte padding, and emit the pixels in the stored channel count. -/
def decode_to_vec (bytes : List Nat) : Except Error (Header × List Nat) :=
  match decodeHeader bytes with
  | .error e => .error e
  | .ok (hd, rest) =>
    match decodeLoop decInit rest hd.n_pixels with
    | .error e => .error e
    | .ok (pxs, rest2) =>
      if rest2.take 8 = QOI_PADDING then
        .ok (hd, pxs.flatMap (writePix hd.channels))
      else .error .InvalidPadding

/-- C1: refuted on the code.  The 1×1 `Xbgr` image `[0, 100, 100, 100]` is
accepted by `Encoder::new_raw`; its stored channel count is 3, so
`encode_max_len` gives `14 + 1*1*(3+1) + 8 = 26`; but because `Xbgr` is
dispatched in 4-channel mode its fallback opcode is the 5-byte `OP_RGBA`, the
encoder emits 27 bytes in total (header 14, opcodes 5, padding 8), exceeding
the bound, and `encode_to_vec` — whose buffer has exactly the bound's length —
fails instead of succeeding. -/
theorem c1_xbgr_exceeds_encode_max_len :
    (match Qoi.Encoder.new_raw [0, 100, 100, 100] 1 1 4 .Xbgr with
     | .ok e => isOkE e.encode_to_vec
     | .error _ => true) = false ∧
    (Qoi.Encoder.new_raw [0, 100, 100, 100] 1 1 4 .Xbgr).map
      Qoi.Encoder.required_buf_len = .ok 26 ∧
    (match Qoi.Encoder.new_raw [0, 100, 100, 100] 1 1 4 .Xbgr with
     | .ok e => e.encode_impl_all ⟨none, []⟩
     | .error e => .error e) =
      .ok (13, ⟨none, [255, 100, 100, 100, 255, 0, 0, 0, 0, 0, 0, 0, 1]⟩) ∧
    26 < Qoi.QOI_HEADER_SIZE + 13 := by
  decide

/-- C2: refuted on the code.  `Xbgr` is an alpha-less layout (stored channels
3), yet `encode_impl_all` dispatches it with `N = 4`; on the fallback case the
encoder therefore emits the 5-byte `OP_RGBA` opcode (first opcode byte 0xff
below), not the 4-byte `OP_RGB`. -/
theorem c2_xbgr_fallback_emits_op_rgba :
    Qoi.rawToChannels .Xbgr = 3 ∧
    (match Qoi.Encoder.new_raw [0, 200, 150, 100] 1 1 4 .Xbgr with
     | .ok e => e.encode_impl_all ⟨none, []⟩
     | .error e => .error e) =
      .ok (13, ⟨none, [255, 100, 150, 200, 255, 0, 0, 0, 0, 0, 0, 0, 1]⟩) ∧
    Qoi.QOI_OP_RGBA = 255 ∧ Qoi.QOI_OP_RGB ≠ 255 := by
  decide

/-- C3: refuted on the code.  With `w = h = 1`, `stride = 3`, layout `Rgb`
(so `stride*(h-1) + w*bpp = 3`): 2 bytes of data (which do not cover the
single pixel) are accepted, while 4 bytes (more than enough) are rejected
with `InvalidImageLength` — the comparison in `new_raw` is flipped. -/
theorem c3_new_raw_length_check_flipped :
    isOkE (Qoi.Encoder.new_raw [0, 0] 1 1 3 .Rgb) = true ∧
    Qoi.Encoder.new_raw [0, 0, 0, 0] 1 1 3 .Rgb =
      .error (.InvalidImageLength 4 1 1) := by
  decide

/-- C4: refuted on the code.  With `w = 1`, `h = 2`, `stride = 4`, layout
`Rgb` and 7 bytes of data (`stride*(h-1) + w*bpp = 7`, accepted by
`new_raw`), `chunks_exact(stride)` yields only one full row, so the encoder
extracts a single pixel chunk instead of the `w*h = 2` pixels the claim
requires: the short final row is dropped. -/
theorem c4_short_last_row_dropped :
    isOkE (Qoi.Encoder.new_raw [0, 1, 2, 3, 4, 5, 6] 1 2 4 .Rgb) = true ∧
    Qoi.pixelChunks 4 3 1 2 [0, 1, 2, 3, 4, 5, 6] = [[0, 1, 2]] ∧
    ([[0, 1, 2]] : List (List Nat)).length ≠ 1 * 2 := by
  decide

/-- C8 counterexample: with 300 bytes at 1×1 the quotient is 300, but the
error carries the clamped value 255 (`n_channels.min(0xff)`), not 300. -/
theorem c8_channels_payload_clamped :
    Qoi.Encoder.new (List.replicate 300 0) 1 1 = .error (.InvalidChannels 255) ∧
    Qoi.Error.InvalidChannels 255 ≠ .InvalidChannels 300 := by
  decide

/-- C10 counterexample: at `w = h = 2^32 - 1`, `channels = 3` the saturating
multiplication caps at `USIZE_MAX` and the following unchecked addition
overflows, so `encode_max_len` aborts (debug) or wraps (release) instead of
returning a saturated value: the model returns `none`. -/
theorem c10_encode_max_len_add_overflows :
    Qoi.encode_max_len (2 ^ 32 - 1) (2 ^ 32 - 1) 3 = none := by
  decide

/-- C9: confirmed.  Whenever the buffer is shorter than `required_buf_len`,
`encode_to_buf` returns `OutputBufferTooSmall{size: buf.len(), required}` and
leaves the buffer exactly as it was — not even the header is written. -/
theorem c9_too_small_buffer_untouched (e : Encoder) (buf : List Nat)
    (hlt : buf.length < e.required_buf_len) :
    e.encode_to_buf buf =
      (.error (.OutputBufferTooSmall buf.length e.required_buf_len), buf) := by
  simp only [Encoder.encode_to_buf]
  rw [if_pos hlt]

/-- Witness for `c9_too_small_buffer_untouched` at a concrete 1×1 RGB encoder
and the empty buffer. -/
theorem c9_too_small_buffer_untouched_witness :
    ([] : List Nat).length <
      (⟨[0, 0, 0], 3, .Rgb, ⟨1, 1, 3, 0⟩⟩ : Encoder).required_buf_len ∧
    (⟨[0, 0, 0], 3, .Rgb, ⟨1, 1, 3, 0⟩⟩ : Encoder).encode_to_buf [] =
      (.error (.OutputBufferTooSmall 0
        (⟨[0, 0, 0], 3, .Rgb, ⟨1, 1, 3, 0⟩⟩ : Encoder).required_buf_len), []) :=
  ⟨by decide,
   c9_too_small_buffer_untouched ⟨[0, 0, 0], 3, .Rgb, ⟨1, 1, 3, 0⟩⟩ [] (by decide)⟩

/-- C10 as amended: the two multiplications in `encode_max_len` do saturate,
but the additions are unchecked; whenever the exact value
`14 + w*h*(channels+1) + 8` fits in usize the function is defined and returns
exactly this value (and in particular nothing saturates), while outside that
range the addition itself can overflow (see
`c10_encode_max_len_add_overflows`). -/
theorem c10_encode_max_len_exact (w h c : Nat)
    (hb : QOI_HEADER_SIZE + w * h * (c + 1) + QOI_PADDING_SIZE ≤ USIZE_MAX) :
    encode_max_len w h c =
      some (QOI_HEADER_SIZE + w * h * (c + 1) + QOI_PADDING_SIZE) := by
  have hmul : w * h * (c + 1) = w * h * c + w * h := by ring
  have hnp : satMul w h = w * h := by
    simp only [satMul]
    omega
  have hnpc : satMul (w * h) c = w * h * c := by
    simp only [satMul]
    have : w * h * c ≤ USIZE_MAX := by omega
    omega
  simp only [encode_max_len, hnp, hnpc, addUsize, Option.bind]
  rw [if_pos (by omega : QOI_HEADER_SIZE + w * h * c ≤ USIZE_MAX)]
  simp only []
  rw [if_pos (by omega : QOI_HEADER_SIZE + w * h * c + w * h ≤ USIZE_MAX)]
  simp only []
  rw [if_pos (by omega : QOI_HEADER_SIZE + w * h * c + w * h + QOI_PADDING_SIZE ≤ USIZE_MAX)]
  congr 1
  omega

/-- Witness for `c10_encode_max_len_exact` at 2×2, 3 channels. -/
theorem c10_encode_max_len_exact_witness :
    QOI_HEADER_SIZE + 2 * 2 * (3 + 1) + QOI_PADDING_SIZE ≤ USIZE_MAX ∧
    encode_max_len 2 2 3 =
      some (QOI_HEADER_SIZE + 2 * 2 * (3 + 1) + QOI_PADDING_SIZE) :=
  ⟨by decide, c10_encode_max_len_exact 2 2 3 (by decide)⟩

/-- C8 as amended: for header-accepted dimensions, `Encoder::new` fails with
`InvalidImageLength{size,w,h}` exactly when `w*h` does not divide the data
length; otherwise, with quotient `q = len / (w*h)`, it fails with
`InvalidChannels{channels: min(q, 255)}` (the quotient is clamped with
`.min(0xff)` before `Channels::try_from`) exactly when `q` is not 3 or 4, and
succeeds when `q` is 3 or 4. -/
theorem c8_new_infers_channels (w h : Nat) (data : List Nat)
    (hw : 1 ≤ w) (hh : 1 ≤ h) (hcap : w * h ≤ QOI_PIXELS_MAX) :
    (¬ w * h ∣ data.length →
      Encoder.new data w h = .error (.InvalidImageLength data.length w h)) ∧
    (w * h ∣ data.length →
      ¬ (data.length / (w * h) = 3 ∨ data.length / (w * h) = 4) →
      Encoder.new data w h =
        .error (.InvalidChannels (min (data.length / (w * h)) 255))) ∧
    (w * h ∣ data.length →
      (data.length / (w * h) = 3 ∨ data.length / (w * h) = 4) →
      isOkE (Encoder.new data w h) = true) := by
  have htry : Header.try_new w h 3 0 = .ok ⟨w, h, 3, 0⟩ := by
    simp only [Header.try_new]
    rw [if_neg (by omega), if_neg (by omega), if_neg (by simp), if_neg (by simp)]
  refine ⟨?_, ?_, ?_⟩
  · intro hndvd
    simp only [Encoder.new, htry, Header.n_pixels]
    rw [if_pos]
    intro heq
    exact hndvd ⟨data.length / (w * h), heq.symm⟩
  · intro hdvd hq
    have hc : w * h * (data.length / (w * h)) = data.length :=
      Nat.mul_div_cancel' hdvd
    simp only [Encoder.new, htry, Header.n_pixels]
    rw [if_neg (by omega)]
    simp only [channelsTryFrom]
    rw [if_neg (by omega)]
  · intro hdvd hq
    have hc : w * h * (data.length / (w * h)) = data.length :=
      Nat.mul_div_cancel' hdvd
    simp only [Encoder.new, htry, Header.n_pixels]
    rw [if_neg (by omega)]
    simp only [channelsTryFrom]
    rw [if_pos (by omega)]
    rfl

/-- Witness for `c8_new_infers_channels`: the spec's two concrete boundary
scenarios, 12 bytes at 3×3 (`InvalidImageLength{12,3,3}`) and 12 bytes at 1×1
(`InvalidChannels{12}`). -/
theorem c8_new_infers_channels_witness :
    Encoder.new (List.replicate 12 0) 3 3 = .error (.InvalidImageLength 12 3 3) ∧
    Encoder.new (List.replicate 12 0) 1 1 = .error (.InvalidChannels 12) := by
  constructor
  · exact (c8_new_infers_channels 3 3 (List.replicate 12 0) (by decide) (by decide)
      (by decide)).1 (by decide)
  · have h := (c8_new_infers_channels 1 1 (List.replicate 12 0) (by decide) (by decide)
      (by decide)).2.1 (by decide) (by decide)
    simpa using h

/-- The per-pixel opcode selector never produces a run opcode. -/
theorem opOfPixel_ne_run (n4 : Bool) (px px_prev : Pix) (k : Nat) :
    opOfPixel n4 px px_prev ≠ Op.run k := by
  intro h
  simp only [opOfPixel] at h
  split_ifs at h

/-- C7: every `OP_RUN` opcode the encoder emits has a run length between 1
and 62 inclusive — its byte lies in `0xC0 ..= 0xFD`, never colliding with
`OP_RGB`/`OP_RGBA` — and the run counter stays at most 61 at the start of
every iteration (so also in the final state). -/
theorem c7_run_opcodes_in_range (n4 : Bool) (rf : Pix → List Nat → Pix) (n : Nat) :
    ∀ (chunks : List (List Nat)) (st : EncState) (i : Nat), st.run ≤ 61 →
      (encLoopOps n4 rf n st i chunks).1.run ≤ 61 ∧
      ∀ op ∈ (encLoopOps n4 rf n st i chunks).2, ∀ k, op = Op.run k →
        1 ≤ k ∧ k ≤ 62 ∧ op.bytes = [QOI_OP_RUN + (k - 1)] ∧
        QOI_OP_RUN ≤ QOI_OP_RUN + (k - 1) ∧ QOI_OP_RUN + (k - 1) ≤ 0xfd := by
  intro chunks
  induction chunks with
  | nil =>
    intro st i h
    simp only [encLoopOps]
    exact ⟨h, by simp⟩
  | cons c rest ih =>
    intro st i h
    simp only [encLoopOps]
    by_cases hpx : rf st.px c = st.px_prev
    · rw [if_pos hpx]
      by_cases hlast : st.run + 1 = 62 ∨ i = n - 1
      · rw [if_pos hlast]
        obtain ⟨h1, h2⟩ := ih { st with px := rf st.px c, run := 0 } (i + 1) (by simp)
        refine ⟨h1, ?_⟩
        intro op hop k hk
        rcases List.mem_cons.mp hop with hop | hop
        · subst hop
          cases hk
          refine ⟨by omega, by omega, rfl, by simp [QOI_OP_RUN], ?_⟩
          simp only [QOI_OP_RUN]
          omega
        · exact h2 op hop k hk
      · rw [if_neg hlast]
        have h62 : st.run + 1 ≠ 62 := fun hh => hlast (Or.inl hh)
        exact ih { st with px := rf st.px c, run := st.run + 1 } (i + 1)
          (by show st.run + 1 ≤ 61; omega)
    · rw [if_neg hpx]
      have hrun_flush : ∀ op ∈ (if st.run ≠ 0 then
          [if st.run = 1 ∧ st.index_allowed = true then Op.index st.hash_prev
           else Op.run st.run] else ([] : List Op)), ∀ k, op = Op.run k →
          1 ≤ k ∧ k ≤ 62 ∧ op.bytes = [QOI_OP_RUN + (k - 1)] ∧
          QOI_OP_RUN ≤ QOI_OP_RUN + (k - 1) ∧ QOI_OP_RUN + (k - 1) ≤ 0xfd := by
        intro op hop k hk
        by_cases hz : st.run ≠ 0
        · rw [if_pos hz] at hop
          by_cases hsub : st.run = 1 ∧ st.index_allowed = true
          · rw [if_pos hsub] at hop
            rcases List.mem_singleton.mp hop with rfl
            exact absurd hk (by simp)
          · rw [if_neg hsub] at hop
            rcases List.mem_singleton.mp hop with rfl
            injection hk with hk2
            subst hk2
            refine ⟨by omega, by omega, rfl, by simp [QOI_OP_RUN], ?_⟩
            simp only [QOI_OP_RUN]
            omega
        · rw [if_neg hz] at hop
          simp at hop
      by_cases hhit : st.index (Pix.hash_index (Pix.as_rgba n4 (rf st.px c) 255)) =
          Pix.as_rgba n4 (rf st.px c) 255
      · rw [if_pos hhit]
        obtain ⟨h1, h2⟩ := ih ⟨st.index, rf st.px c,
          Pix.hash_index (Pix.as_rgba n4 (rf st.px c) 255), 0, rf st.px c, true⟩
          (i + 1) (by simp)
        refine ⟨h1, ?_⟩
        intro op hop k hk
        rcases List.mem_append.mp hop with hop | hop
        · exact hrun_flush op hop k hk
        · rcases List.mem_cons.mp hop with rfl | hop
          · simp at hk
          · exact h2 op hop k hk
      · rw [if_neg hhit]
        obtain ⟨h1, h2⟩ := ih ⟨upd st.index
          (Pix.hash_index (Pix.as_rgba n4 (rf st.px c) 255))
          (Pix.as_rgba n4 (rf st.px c) 255), rf st.px c,
          Pix.hash_index (Pix.as_rgba n4 (rf st.px c) 255), 0, rf st.px c, true⟩
          (i + 1) (by simp)
        refine ⟨h1, ?_⟩
        intro op hop k hk
        rcases List.mem_append.mp hop with hop | hop
        · exact hrun_flush op hop k hk
        · rcases List.mem_cons.mp hop with rfl | hop
          · exact absurd hk (opOfPixel_ne_run n4 (rf st.px c) st.px_prev k)
          · exact h2 op hop k hk

/-- Witness for `c7_run_opcodes_in_range`: a 4-pixel single-row image whose
middle pixels repeat, exercising both a run emission and a flush. -/
theorem c7_run_opcodes_in_range_witness :
    (encInit.run ≤ 61) ∧
    ((encLoopOps false (fun p c => p.read3 c) 4 encInit 0
        [[1, 2, 3], [4, 5, 6], [4, 5, 6], [9, 9, 9]]).1.run ≤ 61 ∧
      ∀ op ∈ (encLoopOps false (fun p c => p.read3 c) 4 encInit 0
        [[1, 2, 3], [4, 5, 6], [4, 5, 6], [9, 9, 9]]).2, ∀ k, op = Op.run k →
        1 ≤ k ∧ k ≤ 62 ∧ op.bytes = [QOI_OP_RUN + (k - 1)] ∧
        QOI_OP_RUN ≤ QOI_OP_RUN + (k - 1) ∧ QOI_OP_RUN + (k - 1) ≤ 0xfd) :=
  ⟨by decide,
   c7_run_opcodes_in_range false (fun p c => p.read3 c) 4
     [[1, 2, 3], [4, 5, 6], [4, 5, 6], [9, 9, 9]] encInit 0 (by decide)⟩

/-- The substitution invariant: once `index_allowed` is set, `hash_prev` is
the hash of the previous pixel's RGBA view and that pixel occupies its own
slot of the index table. -/
def IndexInv (n4 : Bool) (st : EncState) : Prop :=
  st.index_allowed = true →
    st.hash_prev = (st.px_prev.as_rgba n4 255).hash_index ∧
    st.index st.hash_prev = st.px_prev.as_rgba n4 255

/-- The encoder loop preserves the substitution invariant. -/
theorem encLoopOps_indexInv (n4 : Bool) (rf : Pix → List Nat → Pix) (n : Nat) :
    ∀ (chunks : List (List Nat)) (st : EncState) (i : Nat), IndexInv n4 st →
      IndexInv n4 (encLoopOps n4 rf n st i chunks).1 := by
  intro chunks
  induction chunks with
  | nil =>
    intro st i h
    simpa only [encLoopOps] using h
  | cons c rest ih =>
    intro st i h
    simp only [encLoopOps]
    by_cases hpx : rf st.px c = st.px_prev
    · rw [if_pos hpx]
      by_cases hlast : st.run + 1 = 62 ∨ i = n - 1
      · rw [if_pos hlast]
        exact ih _ (i + 1) h
      · rw [if_neg hlast]
        exact ih _ (i + 1) h
    · rw [if_neg hpx]
      by_cases hhit : st.index (Pix.hash_index (Pix.as_rgba n4 (rf st.px c) 255)) =
          Pix.as_rgba n4 (rf st.px c) 255
      · rw [if_pos hhit]
        exact ih _ (i + 1) (fun _ => ⟨rfl, hhit⟩)
      · rw [if_neg hhit]
        refine ih _ (i + 1) (fun _ => ⟨rfl, ?_⟩)
        simp [upd]


/-- `index_allowed` is monotone: once set it stays set. -/
theorem encLoopOps_allowed_mono (n4 : Bool) (rf : Pix → List Nat → Pix) (n : Nat) :
    ∀ (chunks : List (List Nat)) (st : EncState) (i : Nat),
      st.index_allowed = true →
      (encLoopOps n4 rf n st i chunks).1.index_allowed = true := by
  intro chunks
  induction chunks with
  | nil =>
    intro st i h
    simpa only [encLoopOps] using h
  | cons c rest ih =>
    intro st i h
    simp only [encLoopOps]
    by_cases hpx : rf st.px c = st.px_prev
    · rw [if_pos hpx]
      by_cases hlast : st.run + 1 = 62 ∨ i = n - 1
      · rw [if_pos hlast]
        exact ih _ (i + 1) h
      · rw [if_neg hlast]
        exact ih _ (i + 1) h
    · rw [if_neg hpx]
      by_cases hhit : st.index (Pix.hash_index (Pix.as_rgba n4 (rf st.px c) 255)) =
          Pix.as_rgba n4 (rf st.px c) 255
      · rw [if_pos hhit]
        exact ih _ (i + 1) rfl
      · rw [if_neg hhit]
        exact ih _ (i + 1) rfl

/-- C6: in default (non-reference) mode, if a state reached from the initial
state has `run = 1` and `index_allowed = true` and the next pixel differs from
the previous one, then the flush emits `OP_INDEX | hash(previous_pixel)` as
its first opcode (never `OP_RUN | 0`), and at that moment
`index_table[hash(previous_pixel)] = previous_pixel` (as RGBA) holds, so the
substitution decodes to the same pixel; moreover `index_allowed` starts out
false and is set whenever a pixel differs from the previous one. -/
theorem c6_run_one_index_substitution (n4 : Bool) (rf : Pix → List Nat → Pix)
    (n : Nat) (chunks : List (List Nat)) (st : EncState) (j : Nat)
    (c : List Nat) (rest : List (List Nat))
    (hreach : st = (encLoopOps n4 rf n encInit 0 chunks).1)
    (hrun : st.run = 1) (hallow : st.index_allowed = true)
    (hneq : rf st.px c ≠ st.px_prev) :
    encInit.index_allowed = false ∧
    st.hash_prev = (st.px_prev.as_rgba n4 255).hash_index ∧
    st.index st.hash_prev = st.px_prev.as_rgba n4 255 ∧
    (∃ ops, (encLoopOps n4 rf n st j (c :: rest)).2 = Op.index st.hash_prev :: ops) ∧
    (Op.index st.hash_prev).bytes = [QOI_OP_INDEX ||| st.hash_prev] ∧
    (encLoopOps n4 rf n st j (c :: rest)).1.index_allowed = true := by
  have hinv : IndexInv n4 st := by
    rw [hreach]
    exact encLoopOps_indexInv n4 rf n chunks encInit 0 (fun h => by
      exact absurd h (by decide))
  obtain ⟨hh, ht⟩ := hinv hallow
  have hflush : (if st.run ≠ 0 then
      [if st.run = 1 ∧ st.index_allowed = true then Op.index st.hash_prev
       else Op.run st.run] else ([] : List Op)) = [Op.index st.hash_prev] := by
    rw [if_pos (by omega), if_pos ⟨hrun, hallow⟩]
  refine ⟨rfl, hh, ht, ?_, ?_, ?_⟩
  · simp only [encLoopOps]
    rw [if_neg hneq]
    by_cases hhit : st.index (Pix.hash_index (Pix.as_rgba n4 (rf st.px c) 255)) =
        Pix.as_rgba n4 (rf st.px c) 255
    · rw [if_pos hhit, hflush]
      exact ⟨_, rfl⟩
    · rw [if_neg hhit, hflush]
      exact ⟨_, rfl⟩
  · simp only [Op.bytes, QOI_OP_INDEX, Nat.zero_or, Nat.zero_add]
  · simp only [encLoopOps]
    rw [if_neg hneq]
    by_cases hhit : st.index (Pix.hash_index (Pix.as_rgba n4 (rf st.px c) 255)) =
        Pix.as_rgba n4 (rf st.px c) 255
    · rw [if_pos hhit]
      exact encLoopOps_allowed_mono n4 rf n rest _ (j + 1) rfl
    · rw [if_neg hhit]
      exact encLoopOps_allowed_mono n4 rf n rest _ (j + 1) rfl

/-- Witness for `c6_run_one_index_substitution`: after the two pixels
`(1,2,3)`, `(1,2,3)` of a 5-pixel RGB image the encoder sits at `run = 1`
with `index_allowed` set, and the differing pixel `(9,9,9)` triggers the
`OP_INDEX` substitution. -/
theorem c6_run_one_index_substitution_witness :
    ((encLoopOps false (fun p c => p.read3 c) 5 encInit 0
        [[1, 2, 3], [1, 2, 3]]).1.run = 1 ∧
      (encLoopOps false (fun p c => p.read3 c) 5 encInit 0
        [[1, 2, 3], [1, 2, 3]]).1.index_allowed = true) ∧
    (encInit.index_allowed = false ∧
      (encLoopOps false (fun p c => p.read3 c) 5 encInit 0
          [[1, 2, 3], [1, 2, 3]]).1.hash_prev =
        (Pix.as_rgba false (encLoopOps false (fun p c => p.read3 c) 5 encInit 0
          [[1, 2, 3], [1, 2, 3]]).1.px_prev 255).hash_index ∧
      (encLoopOps false (fun p c => p.read3 c) 5 encInit 0
          [[1, 2, 3], [1, 2, 3]]).1.index
        (encLoopOps false (fun p c => p.read3 c) 5 encInit 0
          [[1, 2, 3], [1, 2, 3]]).1.hash_prev =
        Pix.as_rgba false (encLoopOps false (fun p c => p.read3 c) 5 encInit 0
          [[1, 2, 3], [1, 2, 3]]).1.px_prev 255 ∧
      (∃ ops, (encLoopOps false (fun p c => p.read3 c) 5
          (encLoopOps false (fun p c => p.read3 c) 5 encInit 0
            [[1, 2, 3], [1, 2, 3]]).1 2 [[9, 9, 9]]).2 =
        Op.index (encLoopOps false (fun p c => p.read3 c) 5 encInit 0
          [[1, 2, 3], [1, 2, 3]]).1.hash_prev :: ops) ∧
      (Op.index (encLoopOps false (fun p c => p.read3 c) 5 encInit 0
          [[1, 2, 3], [1, 2, 3]]).1.hash_prev).bytes =
        [QOI_OP_INDEX ||| (encLoopOps false (fun p c => p.read3 c) 5 encInit 0
          [[1, 2, 3], [1, 2, 3]]).1.hash_prev] ∧
      (encLoopOps false (fun p c => p.read3 c) 5
          (encLoopOps false (fun p c => p.read3 c) 5 encInit 0
            [[1, 2, 3], [1, 2, 3]]).1 2 [[9, 9, 9]]).1.index_allowed = true) :=
  ⟨⟨by decide, by decide⟩,
   c6_run_one_index_substitution false (fun p c => p.read3 c) 5
     [[1, 2, 3], [1, 2, 3]]
     (encLoopOps false (fun p c => p.read3 c) 5 encInit 0 [[1, 2, 3], [1, 2, 3]]).1
     2 [9, 9, 9] [] rfl (by decide) (by decide) (by decide)⟩

/-- All four channels are bytes. -/
def WFPix (p : Pix) : Prop :=
  p.r < 256 ∧ p.g < 256 ∧ p.b < 256 ∧ p.a < 256

/-- Well-formedness of an emitted opcode in encoder mode `n4`: all fields in
range, run lengths in `1 ..= 62`, and the full-byte opcodes matching the
channel mode. -/
def WFOp (n4 : Bool) : Op → Prop
  | .run n => 1 ≤ n ∧ n ≤ 62
  | .index h => h < 64
  | .diff a b c => a < 4 ∧ b < 4 ∧ c < 4
  | .luma g x y => g < 64 ∧ x < 16 ∧ y < 16
  | .rgb r g b => r < 256 ∧ g < 256 ∧ b < 256 ∧ n4 = false
  | .rgba r g b a => r < 256 ∧ g < 256 ∧ b < 256 ∧ a < 256 ∧ n4 = true

/-- Number of pixels an opcode decodes to. -/
def Op.emits : Op → Nat
  | .run n => n
  | _ => 1

/-- Total pixels decoded by a list of opcodes. -/
def sumEmits (ops : List Op) : Nat :=
  (ops.map Op.emits).sum

/-- Decoder semantics of one opcode (§4.6) on the pair (index table,
previous pixel): the new table, new previous pixel, and emitted pixels. -/
def Op.apply (op : Op) (t : Nat → Pix) (p : Pix) : (Nat → Pix) × Pix × List Pix :=
  match op with
  | .run n => (t, p, List.replicate n p)
  | .index h => (t, t h, [t h])
  | .diff a b c =>
    let q : Pix := ⟨(p.r + a + 254) % 256, (p.g + b + 254) % 256,
                    (p.b + c + 254) % 256, p.a⟩
    (upd t q.hash_index q, q, [q])
  | .luma g x y =>
    let q : Pix := ⟨(p.r + g + x + 216) % 256, (p.g + g + 224) % 256,
                    (p.b + g + y + 216) % 256, p.a⟩
    (upd t q.hash_index q, q, [q])
  | .rgb r g b =>
    let q : Pix := ⟨r, g, b, p.a⟩
    (upd t q.hash_index q, q, [q])
  | .rgba r g b a =>
    let q : Pix := ⟨r, g, b, a⟩
    (upd t q.hash_index q, q, [q])

/-- Decoder semantics of a list of opcodes. -/
def runOps : (Nat → Pix) → Pix → List Op → ((Nat → Pix) × Pix × List Pix)
  | t, p, [] => (t, p, [])
  | t, p, op :: ops =>
    let s1 := op.apply t p
    let s2 := runOps s1.1 s1.2.1 ops
    (s2.1, s2.2.1, s1.2.2 ++ s2.2.2)

/-- The pixel sequence the encoder reads from a list of chunks, threading the
reused pixel variable. -/
def pixelsOf (rf : Pix → List Nat → Pix) : Pix → List (List Nat) → List Pix
  | _p, [] => []
  | p, c :: rest => rf p c :: pixelsOf rf (rf p c) rest

/-- `runOps` over an append splits into sequential composition. -/
theorem runOps_append (l1 l2 : List Op) : ∀ (t : Nat → Pix) (p : Pix),
    runOps t p (l1 ++ l2) =
      ((runOps (runOps t p l1).1 (runOps t p l1).2.1 l2).1,
       (runOps (runOps t p l1).1 (runOps t p l1).2.1 l2).2.1,
       (runOps t p l1).2.2 ++ (runOps (runOps t p l1).1 (runOps t p l1).2.1 l2).2.2) := by
  induction l1 with
  | nil => intro t p; simp [runOps]
  | cons op ops ih =>
    intro t p
    simp only [List.cons_append, runOps, List.append_eq]
    rw [ih]
    simp [List.append_assoc]

/-- The output length of `runOps` is the total emit count. -/
theorem runOps_len (ops : List Op) : ∀ (t : Nat → Pix) (p : Pix),
    (runOps t p ops).2.2.length = sumEmits ops := by
  induction ops with
  | nil => intro t p; simp [runOps, sumEmits]
  | cons op ops ih =>
    intro t p
    simp only [runOps, List.length_append, ih, sumEmits, List.map_cons, List.sum_cons]
    congr 1
    cases op <;> simp [Op.apply, Op.emits]

/-- Serialized size bound: in mode `n4` every well-formed opcode takes at
most `cpp` bytes per decoded pixel, where `cpp = 5` in 4-channel mode and
`cpp = 4` in 3-channel mode (i.e. `channels + 1`). -/
theorem opsBytes_length_le (n4 : Bool) (cpp : Nat)
    (hcpp : cpp = if n4 then 5 else 4) (ops : List Op)
    (hwf : ∀ op ∈ ops, WFOp n4 op) :
    (opsBytes ops).length ≤ cpp * sumEmits ops := by
  induction ops with
  | nil => simp [opsBytes, sumEmits]
  | cons op ops ih =>
    have hop := hwf op (List.mem_cons_self op ops)
    have hrest := ih (fun o ho => hwf o (List.mem_cons_of_mem op ho))
    simp only [opsBytes, List.flatMap_cons, List.length_append, sumEmits,
      List.map_cons, List.sum_cons, Nat.mul_add] at *
    have hone : (Op.bytes op).length ≤ cpp * op.emits := by
      cases op with
      | run n =>
        have h1 : 1 ≤ n := hop.1
        have h4 : 4 ≤ cpp := by cases n4 <;> simp [hcpp]
        simp only [Op.bytes, Op.emits, List.length_cons, List.length_nil]
        calc 1 ≤ 4 * n := by omega
        _ ≤ cpp * n := by exact Nat.mul_le_mul_right n h4
      | index h =>
        have h4 : 4 ≤ cpp := by cases n4 <;> simp [hcpp]
        simp only [Op.bytes, Op.emits, List.length_cons, List.length_nil]
        omega
      | diff a b c =>
        have h4 : 4 ≤ cpp := by cases n4 <;> simp [hcpp]
        simp only [Op.bytes, Op.emits, List.length_cons, List.length_nil]
        omega
      | luma g x y =>
        have h4 : 4 ≤ cpp := by cases n4 <;> simp [hcpp]
        simp only [Op.bytes, Op.emits, List.length_cons, List.length_nil]
        omega
      | rgb r g b =>
        have h4 : cpp = 4 := by rw [hcpp, hop.2.2.2]; decide
        simp only [Op.bytes, Op.emits, List.length_cons, List.length_nil]
        omega
      | rgba r g b a =>
        have h5 : cpp = 5 := by rw [hcpp, hop.2.2.2.2]; decide
        simp only [Op.bytes, Op.emits, List.length_cons, List.length_nil]
        omega
    omega


/-- A pending run of `m` emits `m` copies of the previous pixel. -/
theorem decodeLoop_run (t : Nat → Pix) (p : Pix) :
    ∀ (m k : Nat) (bytes : List Nat), m ≤ k →
      decodeLoop ⟨t, p, m⟩ bytes k =
        match decodeLoop ⟨t, p, 0⟩ bytes (k - m) with
        | .error e => .error e
        | .ok (ps, rest) => .ok (List.replicate m p ++ ps, rest) := by
  intro m
  induction m with
  | zero =>
    intro k bytes _h
    simp only [Nat.sub_zero]
    cases hres : decodeLoop ⟨t, p, 0⟩ bytes k with
    | error e => simp
    | ok v =>
      cases v with
      | mk ps rest => simp
  | succ m ih =>
    intro k bytes h
    cases k with
    | zero => omega
    | succ k' =>
      have hstep : decodeLoop ⟨t, p, m + 1⟩ bytes (k' + 1) =
          match decodeLoop ⟨t, p, m⟩ bytes k' with
          | .error e => .error e
          | .ok (ps, rest) => .ok (p :: ps, rest) := by
        simp only [decodeLoop]
        rw [if_pos (show 0 < (⟨t, p, m + 1⟩ : DecState).run from Nat.succ_pos m)]
        simp
      rw [hstep, ih k' bytes (by omega)]
      have hk : k' - m = k' + 1 - (m + 1) := by omega
      rw [hk]
      cases hres : decodeLoop ⟨t, p, 0⟩ bytes (k' + 1 - (m + 1)) with
      | error e => simp
      | ok v =>
        cases v with
        | mk ps rest => simp [List.replicate_succ]

/-- Parsing one serialized well-formed opcode from the byte stream and
running the decoder loop on it applies exactly the opcode's semantics. -/
theorem decodeLoop_op (n4 : Bool) (op : Op) (t : Nat → Pix) (p : Pix)
    (rest : List Nat) (k : Nat) (hwf : WFOp n4 op) (hk : op.emits ≤ k) :
    decodeLoop ⟨t, p, 0⟩ (op.bytes ++ rest) k =
      match decodeLoop ⟨(op.apply t p).1, (op.apply t p).2.1, 0⟩ rest (k - op.emits) with
      | .error e => .error e
      | .ok (ps, r2) => .ok ((op.apply t p).2.2 ++ ps, r2) := by
  have hnr : ¬0 < (⟨t, p, 0⟩ : DecState).run := Nat.lt_irrefl 0
  cases op with
  | index h =>
    have h64 : h < 64 := hwf
    obtain ⟨k', rfl⟩ : ∃ k', k = k' + 1 := ⟨k - 1, by simp [Op.emits] at hk; omega⟩
    simp only [Op.bytes, Op.apply, Op.emits, QOI_OP_INDEX, Nat.zero_add,
      List.singleton_append, Nat.add_sub_cancel]
    simp only [decodeLoop]
    rw [if_neg hnr, if_pos h64]
  | diff a b c =>
    obtain ⟨ha, hb, hc⟩ := hwf
    obtain ⟨k', rfl⟩ : ∃ k', k = k' + 1 := ⟨k - 1, by simp [Op.emits] at hk; omega⟩
    simp only [Op.bytes, Op.apply, Op.emits, QOI_OP_DIFF,
      List.singleton_append, Nat.add_sub_cancel]
    simp only [decodeLoop]
    rw [if_neg hnr]
    rw [if_neg (by omega : ¬(64 + 16 * a + 4 * b + c < 64)),
        if_pos (by omega : 64 + 16 * a + 4 * b + c < 128)]
    have h1 : (64 + 16 * a + 4 * b + c) / 16 % 4 = a := by omega
    have h2 : (64 + 16 * a + 4 * b + c) / 4 % 4 = b := by omega
    have h3 : (64 + 16 * a + 4 * b + c) % 4 = c := by omega
    rw [h1, h2, h3]
  | luma g x y =>
    obtain ⟨hg, hx, hy⟩ := hwf
    obtain ⟨k', rfl⟩ : ∃ k', k = k' + 1 := ⟨k - 1, by simp [Op.emits] at hk; omega⟩
    simp only [Op.bytes, Op.apply, Op.emits, QOI_OP_LUMA,
      List.cons_append, List.singleton_append, Nat.add_sub_cancel]
    simp only [decodeLoop]
    rw [if_neg hnr]
    rw [if_neg (by omega : ¬(128 + g < 64)), if_neg (by omega : ¬(128 + g < 128)),
        if_pos (by omega : 128 + g < 192)]
    have h1 : (128 + g) % 64 = g := by omega
    have h2 : (16 * x + y) / 16 = x := by omega
    have h3 : (16 * x + y) % 16 = y := by omega
    rw [h1, h2, h3]
    simp
  | rgb r g b =>
    obtain ⟨k', rfl⟩ : ∃ k', k = k' + 1 := ⟨k - 1, by simp [Op.emits] at hk; omega⟩
    simp only [Op.bytes, Op.apply, Op.emits, QOI_OP_RGB,
      List.cons_append, List.singleton_append, Nat.add_sub_cancel]
    simp only [decodeLoop]
    rw [if_neg hnr]
    rw [if_neg (by omega : ¬(254 < 64)), if_neg (by omega : ¬(254 < 128)),
        if_neg (by omega : ¬(254 < 192))]
    simp
  | rgba r g b a =>
    obtain ⟨k', rfl⟩ : ∃ k', k = k' + 1 := ⟨k - 1, by simp [Op.emits] at hk; omega⟩
    simp only [Op.bytes, Op.apply, Op.emits, QOI_OP_RGBA,
      List.cons_append, List.singleton_append, Nat.add_sub_cancel]
    simp only [decodeLoop]
    rw [if_neg hnr]
    rw [if_neg (by omega : ¬(255 < 64)), if_neg (by omega : ¬(255 < 128)),
        if_neg (by omega : ¬(255 < 192)), if_neg (by omega : ¬((255 : Nat) = 254))]
    simp
  | run n =>
    obtain ⟨hn1, hn62⟩ := hwf
    obtain ⟨k', rfl⟩ : ∃ k', k = k' + 1 := ⟨k - 1, by simp [Op.emits] at hk; omega⟩
    have hk' : n - 1 ≤ k' := by simp [Op.emits] at hk; omega
    simp only [Op.bytes, Op.apply, Op.emits, QOI_OP_RUN,
      List.singleton_append]
    simp only [decodeLoop]
    rw [if_neg hnr]
    rw [if_neg (by omega : ¬(192 + (n - 1) < 64)),
        if_neg (by omega : ¬(192 + (n - 1) < 128)),
        if_neg (by omega : ¬(192 + (n - 1) < 192)),
        if_neg (by omega : ¬(192 + (n - 1) = 254)),
        if_neg (by omega : ¬(192 + (n - 1) = 255))]
    have hmod : (192 + (n - 1)) % 64 = n - 1 := by omega
    rw [hmod]
    rw [decodeLoop_run t p (n - 1) k' rest hk']
    have hke : k' - (n - 1) = k' + 1 - n := by omega
    rw [hke]
    cases hres : decodeLoop ⟨t, p, 0⟩ rest (k' + 1 - n) with
    | error e => simp
    | ok v =>
      cases v with
      | mk ps r2 =>
        simp only []
        rw [show n = (n - 1) + 1 by omega, List.replicate_succ]
        simp

/-- Decoding the serialization of a list of well-formed opcodes yields
exactly their combined semantics and leaves the rest of the input. -/
theorem decodeLoop_ops (n4 : Bool) :
    ∀ (ops : List Op) (t : Nat → Pix) (p : Pix) (rest : List Nat),
      (∀ op ∈ ops, WFOp n4 op) →
      decodeLoop ⟨t, p, 0⟩ (opsBytes ops ++ rest) (sumEmits ops) =
        .ok ((runOps t p ops).2.2, rest) := by
  intro ops
  induction ops with
  | nil =>
    intro t p rest _h
    simp [opsBytes, sumEmits, runOps, decodeLoop]
  | cons op ops ih =>
    intro t p rest h
    have hop := h op (List.mem_cons_self op ops)
    have hsum : sumEmits (op :: ops) = op.emits + sumEmits ops := by
      simp [sumEmits]
    simp only [opsBytes, List.flatMap_cons, List.append_assoc]
    rw [show (ops.flatMap Op.bytes) = opsBytes ops from rfl]
    rw [decodeLoop_op n4 op t p (opsBytes ops ++ rest) (sumEmits (op :: ops)) hop
      (by omega)]
    rw [show sumEmits (op :: ops) - op.emits = sumEmits ops by omega]
    rw [ih _ _ _ (fun o ho => h o (List.mem_cons_of_mem op ho))]
    simp [runOps]

/-- The pixel hash is always a valid index-table slot. -/
theorem hash_index_lt (p : Pix) : p.hash_index < 64 :=
  Nat.mod_lt _ (by omega)

/-- Reading back the slot just written. -/
theorem upd_self (t : Nat → Pix) (i : Nat) (v : Pix) : upd t i v i = v := by
  simp [upd]

/-- The RGBA view is the identity in 4-channel mode, and also in 3-channel
mode when the virtual alpha is already `0xff`. -/
theorem as_rgba_id (n4 : Bool) (p : Pix) (h : n4 = true ∨ p.a = 255) :
    p.as_rgba n4 255 = p := by
  cases n4 with
  | true => simp [Pix.as_rgba]
  | false =>
    rcases h with h | h
    · exact absurd h (by decide)
    · cases p
      simp_all [Pix.as_rgba]

/-- Every opcode the per-pixel selector emits for a byte-valued pixel is
well-formed in its mode. -/
theorem opOfPixel_wf (n4 : Bool) (px prev : Pix) (hpx : WFPix px) :
    WFOp n4 (opOfPixel n4 px prev) := by
  obtain ⟨h1, h2, h3, h4⟩ := hpx
  simp only [opOfPixel]
  split_ifs with hc1 hc2 hc3 hc4
  · exact ⟨h1, h2, h3, h4, hc1.1⟩
  · exact ⟨hc2.1, hc2.2.1, hc2.2.2⟩
  · exact ⟨hc3.1, hc3.2.1, hc3.2.2⟩
  · exact ⟨h1, h2, h3, h4, hc4⟩
  · refine ⟨h1, h2, h3, ?_⟩
    cases n4 with
    | false => rfl
    | true => exact absurd rfl hc4


/-- Decoding the opcode the selector emits for pixel `px` against the same
previous pixel reconstructs exactly `px` and stores it in its hash slot. -/
theorem opApply_sel (n4 : Bool) (px prev : Pix) (t : Nat → Pix)
    (hpx : WFPix px) (hprev : WFPix prev)
    (ha : n4 = false → px.a = 255 ∧ prev.a = 255) :
    Op.apply (opOfPixel n4 px prev) t prev = (upd t px.hash_index px, px, [px]) := by
  obtain ⟨hr, hg, hb, hal⟩ := hpx
  obtain ⟨hr', hg', hb', hal'⟩ := hprev
  simp only [opOfPixel]
  split_ifs with hc1 hc2 hc3 hc4
  · simp only [Op.apply]
  · have haeq : px.a = prev.a := by
      cases n4 with
      | false => obtain ⟨u, v⟩ := ha rfl; omega
      | true =>
        have hda : (px.a + 256 - prev.a) % 256 = 0 := by
          by_contra hda
          exact hc1 ⟨rfl, hda⟩
        omega
    simp only [Op.apply]
    have hq : (⟨(prev.r + ((px.r + 256 - prev.r) % 256 + 2) % 256 + 254) % 256,
        (prev.g + ((px.g + 256 - prev.g) % 256 + 2) % 256 + 254) % 256,
        (prev.b + ((px.b + 256 - prev.b) % 256 + 2) % 256 + 254) % 256,
        prev.a⟩ : Pix) = px := by
      ext
      · show (prev.r + ((px.r + 256 - prev.r) % 256 + 2) % 256 + 254) % 256 = px.r
        omega
      · show (prev.g + ((px.g + 256 - prev.g) % 256 + 2) % 256 + 254) % 256 = px.g
        omega
      · show (prev.b + ((px.b + 256 - prev.b) % 256 + 2) % 256 + 254) % 256 = px.b
        omega
      · exact haeq.symm
    rw [hq]
  · have haeq : px.a = prev.a := by
      cases n4 with
      | false => obtain ⟨u, v⟩ := ha rfl; omega
      | true =>
        have hda : (px.a + 256 - prev.a) % 256 = 0 := by
          by_contra hda
          exact hc1 ⟨rfl, hda⟩
        omega
    simp only [Op.apply]
    have hq : (⟨(prev.r + ((px.g + 256 - prev.g) % 256 + 32) % 256 +
          ((px.r + 256 - prev.r) % 256 + 256 - (px.g + 256 - prev.g) % 256 + 8) % 256 +
          216) % 256,
        (prev.g + ((px.g + 256 - prev.g) % 256 + 32) % 256 + 224) % 256,
        (prev.b + ((px.g + 256 - prev.g) % 256 + 32) % 256 +
          ((px.b + 256 - prev.b) % 256 + 256 - (px.g + 256 - prev.g) % 256 + 8) % 256 +
          216) % 256,
        prev.a⟩ : Pix) = px := by
      ext
      · show (prev.r + ((px.g + 256 - prev.g) % 256 + 32) % 256 +
          ((px.r + 256 - prev.r) % 256 + 256 - (px.g + 256 - prev.g) % 256 + 8) % 256 +
          216) % 256 = px.r
        omega
      · show (prev.g + ((px.g + 256 - prev.g) % 256 + 32) % 256 + 224) % 256 = px.g
        omega
      · show (prev.b + ((px.g + 256 - prev.g) % 256 + 32) % 256 +
          ((px.b + 256 - prev.b) % 256 + 256 - (px.g + 256 - prev.g) % 256 + 8) % 256 +
          216) % 256 = px.b
        omega
      · exact haeq.symm
    rw [hq]
  · simp only [Op.apply]
  · have haeq : px.a = prev.a := by
      cases n4 with
      | false => obtain ⟨u, v⟩ := ha rfl; omega
      | true => exact absurd rfl hc4
    simp only [Op.apply]
    have hq : (⟨px.r, px.g, px.b, prev.a⟩ : Pix) = px := by
      ext
      · rfl
      · rfl
      · rfl
      · exact haeq.symm
    rw [hq]


/-- The simulation invariant between the encoder state and the decoder's
(index table, previous pixel) pair. -/
structure EInv (n4 : Bool) (est : EncState) (t : Nat → Pix) (p : Pix) : Prop where
  tbl : t = est.index
  prev : p = est.px_prev
  run_le : est.run ≤ 61
  hash_lt : est.hash_prev < 64
  wf_prev : WFPix est.px_prev
  wf_px : WFPix est.px
  alpha : n4 = false → est.px.a = 255 ∧ est.px_prev.a = 255
  allowed : est.index_allowed = true →
    est.index est.hash_prev = Pix.as_rgba n4 est.px_prev 255

/-- Master simulation lemma: the opcodes the encoder emits are well formed,
and decoding them from a synchronized decoder state reproduces the pending
run followed by exactly the pixels the encoder read. -/
theorem encDecSync (n4 : Bool) (rf : Pix → List Nat → Pix)
    (Hwf : ∀ q c, WFPix q → (∀ x ∈ c, x < 256) → WFPix (rf q c))
    (Halpha : n4 = false → ∀ q c, (rf q c).a = q.a) (n : Nat) :
    ∀ (chunks : List (List Nat)) (est : EncState) (t : Nat → Pix) (p : Pix) (i : Nat),
      i + chunks.length = n →
      (chunks = [] → est.run = 0) →
      EInv n4 est t p →
      (∀ c ∈ chunks, ∀ x ∈ c, x < 256) →
      (∀ op ∈ (encLoopOps n4 rf n est i chunks).2, WFOp n4 op) ∧
      runOps t p (encLoopOps n4 rf n est i chunks).2 =
        ((encLoopOps n4 rf n est i chunks).1.index,
         (encLoopOps n4 rf n est i chunks).1.px_prev,
         List.replicate est.run est.px_prev ++ pixelsOf rf est.px chunks) := by
  intro chunks
  induction chunks with
  | nil =>
    intro est t p i _hn hrun0 inv _hb
    simp only [encLoopOps, pixelsOf, List.append_nil]
    refine ⟨by simp, ?_⟩
    rw [hrun0 rfl]
    simp [runOps, inv.tbl, inv.prev]
  | cons c rest ih =>
    intro est t p i hn hrun0 inv hb
    have hbc : ∀ x ∈ c, x < 256 := hb c (List.mem_cons_self c rest)
    have hbr : ∀ c' ∈ rest, ∀ x ∈ c', x < 256 :=
      fun c' hc' => hb c' (List.mem_cons_of_mem c hc')
    have hw_px : WFPix (rf est.px c) := Hwf est.px c inv.wf_px hbc
    have halpha_px : n4 = false → (rf est.px c).a = 255 :=
      fun h => (Halpha h est.px c).trans (inv.alpha h).1
    simp only [encLoopOps]
    by_cases hpx : rf est.px c = est.px_prev
    · rw [if_pos hpx]
      by_cases hlast : est.run + 1 = 62 ∨ i = n - 1
      · rw [if_pos hlast]
        obtain ⟨hwf', hdec'⟩ := ih { est with px := rf est.px c, run := 0 } t p (i + 1)
          (by simp at hn ⊢; omega) (fun _ => rfl)
          { tbl := inv.tbl, prev := inv.prev, run_le := by simp
          , hash_lt := inv.hash_lt, wf_prev := inv.wf_prev
          , wf_px := hw_px
          , alpha := fun h => ⟨halpha_px h, (inv.alpha h).2⟩
          , allowed := inv.allowed } hbr
        have hrle := inv.run_le
        refine ⟨?_, ?_⟩
        · intro op hop
          rcases List.mem_cons.mp hop with rfl | hop
          · exact ⟨by omega, by omega⟩
          · exact hwf' op hop
        · simp only [runOps, Op.apply]
          rw [hdec']
          simp only [pixelsOf, Prod.mk.injEq, true_and, List.nil_append]
          rw [inv.prev, hpx, List.replicate_succ']
          simp [List.append_assoc]
      · rw [if_neg hlast]
        have h62 : est.run + 1 ≠ 62 := fun hh => hlast (Or.inl hh)
        have hrest : rest ≠ [] := by
          intro hre
          subst hre
          simp at hn
          exact hlast (Or.inr (by omega))
        obtain ⟨hwf', hdec'⟩ := ih { est with px := rf est.px c, run := est.run + 1 }
          t p (i + 1) (by simp at hn ⊢; omega) (fun hre => absurd hre hrest)
          { tbl := inv.tbl, prev := inv.prev
          , run_le := by have := inv.run_le; simp; omega
          , hash_lt := inv.hash_lt, wf_prev := inv.wf_prev
          , wf_px := hw_px
          , alpha := fun h => ⟨halpha_px h, (inv.alpha h).2⟩
          , allowed := inv.allowed } hbr
        refine ⟨hwf', ?_⟩
        rw [hdec']
        simp only [pixelsOf, Prod.mk.injEq, true_and]
        rw [hpx, List.replicate_succ']
        simp [List.append_assoc]
    · rw [if_neg hpx]
      have hrle := inv.run_le
      have hrgba : Pix.as_rgba n4 (rf est.px c) 255 = rf est.px c :=
        as_rgba_id n4 _ (by
          cases n4 with
          | true => exact Or.inl rfl
          | false => exact Or.inr (halpha_px rfl))
      have hprev_rgba : Pix.as_rgba n4 est.px_prev 255 = est.px_prev :=
        as_rgba_id n4 _ (by
          cases n4 with
          | true => exact Or.inl rfl
          | false => exact Or.inr (inv.alpha rfl).2)
      rw [hrgba]
      have hflush_wf : ∀ op ∈ (if est.run ≠ 0 then
          [if est.run = 1 ∧ est.index_allowed = true then Op.index est.hash_prev
           else Op.run est.run] else ([] : List Op)), WFOp n4 op := by
        intro op hop
        by_cases hr0 : est.run ≠ 0
        · rw [if_pos hr0] at hop
          rcases List.mem_singleton.mp hop with rfl
          by_cases hsub : est.run = 1 ∧ est.index_allowed = true
          · rw [if_pos hsub]
            exact inv.hash_lt
          · rw [if_neg hsub]
            exact ⟨by omega, by omega⟩
        · rw [if_neg hr0] at hop
          simp at hop
      have hflush_run : runOps t p (if est.run ≠ 0 then
          [if est.run = 1 ∧ est.index_allowed = true then Op.index est.hash_prev
           else Op.run est.run] else ([] : List Op)) =
          (t, p, List.replicate est.run p) := by
        by_cases hr0 : est.run ≠ 0
        · rw [if_pos hr0]
          by_cases hsub : est.run = 1 ∧ est.index_allowed = true
          · rw [if_pos hsub]
            have hth : t est.hash_prev = p := by
              rw [inv.tbl, inv.allowed hsub.2, hprev_rgba, inv.prev]
            simp [runOps, Op.apply, hth, hsub.1]
          · rw [if_neg hsub]
            simp [runOps, Op.apply]
        · rw [if_neg hr0]
          simp at hr0
          simp [runOps, hr0]
      by_cases hhit : est.index (Pix.hash_index (rf est.px c)) = rf est.px c
      · rw [if_pos hhit]
        obtain ⟨hwf', hdec'⟩ := ih
          ⟨est.index, rf est.px c, Pix.hash_index (rf est.px c), 0, rf est.px c, true⟩
          t (rf est.px c) (i + 1)
          (by simp at hn ⊢; omega) (fun _ => rfl)
          { tbl := inv.tbl, prev := rfl, run_le := Nat.zero_le 61
          , hash_lt := hash_index_lt _, wf_prev := hw_px, wf_px := hw_px
          , alpha := fun h => ⟨halpha_px h, halpha_px h⟩
          , allowed := fun _ => by
              show est.index (Pix.hash_index (rf est.px c)) = _
              rw [hrgba]
              exact hhit } hbr
        refine ⟨?_, ?_⟩
        · intro op hop
          rcases List.mem_append.mp hop with hop | hop
          · exact hflush_wf op hop
          · rcases List.mem_cons.mp hop with rfl | hop
            · exact hash_index_lt _
            · exact hwf' op hop
        · rw [runOps_append, hflush_run]
          simp only [runOps, Op.apply]
          have hth : t (Pix.hash_index (rf est.px c)) = rf est.px c := by
            rw [inv.tbl]
            exact hhit
          rw [hth, hdec']
          simp only [pixelsOf, Prod.mk.injEq, true_and, List.nil_append]
          rw [inv.prev]
          simp [List.append_assoc]
      · rw [if_neg hhit]
        obtain ⟨hwf', hdec'⟩ := ih
          ⟨upd est.index (Pix.hash_index (rf est.px c)) (rf est.px c), rf est.px c,
            Pix.hash_index (rf est.px c), 0, rf est.px c, true⟩
          (upd t (Pix.hash_index (rf est.px c)) (rf est.px c)) (rf est.px c) (i + 1)
          (by simp at hn ⊢; omega) (fun _ => rfl)
          { tbl := by rw [inv.tbl], prev := rfl, run_le := Nat.zero_le 61
          , hash_lt := hash_index_lt _, wf_prev := hw_px, wf_px := hw_px
          , alpha := fun h => ⟨halpha_px h, halpha_px h⟩
          , allowed := fun _ => by
              show upd est.index (Pix.hash_index (rf est.px c)) (rf est.px c)
                (Pix.hash_index (rf est.px c)) = _
              rw [hrgba, upd_self] } hbr
        refine ⟨?_, ?_⟩
        · intro op hop
          rcases List.mem_append.mp hop with hop | hop
          · exact hflush_wf op hop
          · rcases List.mem_cons.mp hop with rfl | hop
            · exact opOfPixel_wf n4 _ _ hw_px
            · exact hwf' op hop
        · rw [runOps_append, hflush_run]
          simp only [runOps]
          rw [show p = est.px_prev from inv.prev] at *
          rw [opApply_sel n4 (rf est.px c) est.px_prev t hw_px inv.wf_prev
            (fun h => ⟨halpha_px h, (inv.alpha h).2⟩)]
          simp only []
          rw [hdec']
          simp only [pixelsOf, Prod.mk.injEq, true_and, List.nil_append]
          simp [List.append_assoc]


/-- Bit-or against the run tag is plain addition for 6-bit operands. -/
theorem lor_192 : ∀ x, x < 64 → 192 ||| x = 192 + x := by decide

/-- A sink write succeeds when the bytes fit the remaining capacity. -/
theorem wr_ok (bs : List Nat) (r : Nat) (out : List Nat) (h : bs.length ≤ r) :
    wr bs ⟨some r, out⟩ = .ok ⟨some (r - bs.length), out ++ bs⟩ := by
  simp [wr, h]

/-- Serialized form of a flush `OP_INDEX` opcode. -/
theorem opBytes_index_eq (h : Nat) : Op.bytes (Op.index h) = [h] := by
  simp [Op.bytes, QOI_OP_INDEX]

/-- Serialized form of a flush `OP_RUN` opcode. -/
theorem opBytes_run_eq (n : Nat) : Op.bytes (Op.run n) = [192 + (n - 1)] := rfl

/-- The byte-level encoder loop agrees with the opcode-level one: when the
serialized opcodes fit in the remaining capacity, the sink receives exactly
their bytes and the final states coincide. -/
theorem encLoopB_eq_ops (n4 : Bool) (rf : Pix → List Nat → Pix) (n : Nat) :
    ∀ (chunks : List (List Nat)) (st : EncState) (i r : Nat) (out : List Nat),
      st.run ≤ 61 → st.hash_prev < 64 →
      (opsBytes (encLoopOps n4 rf n st i chunks).2).length ≤ r →
      encLoopB n4 rf n ⟨some r, out⟩ st i chunks =
        .ok (⟨some (r - (opsBytes (encLoopOps n4 rf n st i chunks).2).length),
              out ++ opsBytes (encLoopOps n4 rf n st i chunks).2⟩,
             (encLoopOps n4 rf n st i chunks).1) := by
  intro chunks
  induction chunks with
  | nil =>
    intro st i r out _h1 _h2 _h3
    simp [encLoopB, encLoopOps, opsBytes]
  | cons c rest ih =>
    intro st i r out hrun hhash hle
    simp only [opsBytes] at ih hle ⊢
    simp only [encLoopB]
    by_cases hpx : rf st.px c = st.px_prev
    · rw [if_pos hpx]
      by_cases hlast : st.run + 1 = 62 ∨ i = n - 1
      · rw [if_pos hlast]
        have hops : encLoopOps n4 rf n st i (c :: rest) =
            ((encLoopOps n4 rf n { st with px := rf st.px c, run := 0 } (i + 1) rest).1,
             Op.run (st.run + 1) ::
               (encLoopOps n4 rf n { st with px := rf st.px c, run := 0 } (i + 1) rest).2) := by
          simp only [encLoopOps]
          rw [if_pos hpx, if_pos hlast]
        rw [hops] at hle ⊢
        simp only [List.flatMap_cons, Op.bytes, QOI_OP_RUN, Nat.add_sub_cancel,
          List.singleton_append, List.length_cons, List.length_append] at hle ⊢
        rw [lor_192 st.run (by omega)]
        simp only [Nat.zero_add, List.length_cons, List.length_nil,
          wr_ok [192 + st.run] r out (by simp at hle ⊢; omega)]
        rw [ih { st with px := rf st.px c, run := 0 } (i + 1) (r - 1)
          (out ++ [192 + st.run]) (by simp) hhash (by simp at hle ⊢; omega)]
        simp only [Except.ok.injEq, Prod.mk.injEq, Buf.mk.injEq, Option.some.injEq,
          List.append_assoc, List.singleton_append, List.cons_append]
        first
        | rfl
        | omega
        | (refine ⟨⟨?_, by trivial⟩, by trivial⟩; all_goals omega)
        | (refine ⟨?_, by trivial⟩; all_goals omega)
        | (refine ⟨by trivial, ?_⟩; all_goals omega)
      · rw [if_neg hlast]
        have h62 : st.run + 1 ≠ 62 := fun hh => hlast (Or.inl hh)
        have hops : encLoopOps n4 rf n st i (c :: rest) =
            encLoopOps n4 rf n { st with px := rf st.px c, run := st.run + 1 } (i + 1) rest := by
          simp only [encLoopOps]
          rw [if_pos hpx, if_neg hlast]
        rw [hops] at hle ⊢
        exact ih { st with px := rf st.px c, run := st.run + 1 } (i + 1) r out
          (by simp; omega) hhash hle
    · rw [if_neg hpx]
      by_cases hhit : st.index (Pix.hash_index (Pix.as_rgba n4 (rf st.px c) 255)) =
          Pix.as_rgba n4 (rf st.px c) 255
      · by_cases hr0 : st.run ≠ 0
        · by_cases hsub : st.run = 1 ∧ st.index_allowed = true
          · have hops : encLoopOps n4 rf n st i (c :: rest) =
                ((encLoopOps n4 rf n ⟨st.index, rf st.px c,
                    Pix.hash_index (Pix.as_rgba n4 (rf st.px c) 255), 0, rf st.px c, true⟩
                    (i + 1) rest).1,
                 Op.index st.hash_prev ::
                   Op.index (Pix.hash_index (Pix.as_rgba n4 (rf st.px c) 255)) ::
                   (encLoopOps n4 rf n ⟨st.index, rf st.px c,
                     Pix.hash_index (Pix.as_rgba n4 (rf st.px c) 255), 0, rf st.px c, true⟩
                     (i + 1) rest).2) := by
              simp only [encLoopOps]
              rw [if_neg hpx, if_pos hhit, if_pos hr0, if_pos hsub]
              simp
            rw [hops] at hle ⊢
            rw [if_pos hr0, if_pos hsub]
            simp only [List.flatMap_cons, Op.bytes, QOI_OP_INDEX, Nat.zero_or, Nat.zero_add,
              List.singleton_append, List.length_cons, List.length_append] at hle ⊢
            simp only [Nat.zero_add, List.length_cons, List.length_nil,
              wr_ok [st.hash_prev] r out (by simp at hle ⊢; omega)]
            simp only [hhit, eq_self_iff_true, if_true, if_false, Nat.zero_add, List.length_cons,
              List.length_nil,
              wr_ok [Pix.hash_index (Pix.as_rgba n4 (rf st.px c) 255)] (r - 1)
                (out ++ [st.hash_prev]) (by simp at hle ⊢; omega)]
            rw [ih _ (i + 1) (r - 1 - 1) _ (by simp) (hash_index_lt _)
              (by simp at hle ⊢; omega)]
            simp only [Except.ok.injEq, Prod.mk.injEq, Buf.mk.injEq, Option.some.injEq,
              List.append_assoc, List.singleton_append, List.cons_append]
            first
            | rfl
            | omega
            | (refine ⟨⟨?_, by trivial⟩, by trivial⟩; all_goals omega)
            | (refine ⟨?_, by trivial⟩; all_goals omega)
            | (refine ⟨by trivial, ?_⟩; all_goals omega)
          · have hops : encLoopOps n4 rf n st i (c :: rest) =
                ((encLoopOps n4 rf n ⟨st.index, rf st.px c,
                    Pix.hash_index (Pix.as_rgba n4 (rf st.px c) 255), 0, rf st.px c, true⟩
                    (i + 1) rest).1,
                 Op.run st.run ::
                   Op.index (Pix.hash_index (Pix.as_rgba n4 (rf st.px c) 255)) ::
                   (encLoopOps n4 rf n ⟨st.index, rf st.px c,
                     Pix.hash_index (Pix.as_rgba n4 (rf st.px c) 255), 0, rf st.px c, true⟩
                     (i + 1) rest).2) := by
              simp only [encLoopOps]
              rw [if_neg hpx, if_pos hhit, if_pos hr0, if_neg hsub]
              simp
            rw [hops] at hle ⊢
            rw [if_pos hr0, if_neg hsub]
            simp only [List.flatMap_cons, Op.bytes, QOI_OP_INDEX, QOI_OP_RUN, Nat.zero_or, Nat.zero_add,
              List.singleton_append, List.length_cons, List.length_append] at hle ⊢
            rw [lor_192 (st.run - 1) (by omega)]
            simp only [Nat.zero_add, List.length_cons, List.length_nil,
              wr_ok [192 + (st.run - 1)] r out (by simp at hle ⊢; omega)]
            simp only [hhit, eq_self_iff_true, if_true, if_false, Nat.zero_add, List.length_cons,
              List.length_nil,
              wr_ok [Pix.hash_index (Pix.as_rgba n4 (rf st.px c) 255)] (r - 1)
                (out ++ [192 + (st.run - 1)]) (by simp at hle ⊢; omega)]
            rw [ih _ (i + 1) (r - 1 - 1) _ (by simp) (hash_index_lt _)
              (by simp at hle ⊢; omega)]
            simp only [Except.ok.injEq, Prod.mk.injEq, Buf.mk.injEq, Option.some.injEq,
              List.append_assoc, List.singleton_append, List.cons_append]
            first
            | rfl
            | omega
            | (refine ⟨⟨?_, by trivial⟩, by trivial⟩; all_goals omega)
            | (refine ⟨?_, by trivial⟩; all_goals omega)
            | (refine ⟨by trivial, ?_⟩; all_goals omega)
        · have hops : encLoopOps n4 rf n st i (c :: rest) =
              ((encLoopOps n4 rf n ⟨st.index, rf st.px c,
                  Pix.hash_index (Pix.as_rgba n4 (rf st.px c) 255), 0, rf st.px c, true⟩
                  (i + 1) rest).1,
               Op.index (Pix.hash_index (Pix.as_rgba n4 (rf st.px c) 255)) ::
                 (encLoopOps n4 rf n ⟨st.index, rf st.px c,
                   Pix.hash_index (Pix.as_rgba n4 (rf st.px c) 255), 0, rf st.px c, true⟩
                   (i + 1) rest).2) := by
            simp only [encLoopOps]
            rw [if_neg hpx, if_pos hhit, if_neg hr0]
            simp
          rw [hops] at hle ⊢
          rw [if_neg hr0]
          simp only [List.flatMap_cons, Op.bytes, QOI_OP_INDEX, Nat.zero_or, Nat.zero_add,
            List.singleton_append, List.length_cons, List.length_append] at hle ⊢
          simp only [hhit, eq_self_iff_true, if_true, if_false, Nat.zero_add, List.length_cons,
            List.length_nil,
            wr_ok [Pix.hash_index (Pix.as_rgba n4 (rf st.px c) 255)] r out
              (by simp at hle ⊢; omega)]
          rw [ih _ (i + 1) (r - 1) _ (by simp) (hash_index_lt _)
            (by simp at hle ⊢; omega)]
          simp only [Except.ok.injEq, Prod.mk.injEq, Buf.mk.injEq, Option.some.injEq,
            List.append_assoc, List.singleton_append, List.cons_append]
          first
          | rfl
          | omega
          | (refine ⟨⟨?_, by trivial⟩, by trivial⟩; all_goals omega)
          | (refine ⟨?_, by trivial⟩; all_goals omega)
          | (refine ⟨by trivial, ?_⟩; all_goals omega)
      · by_cases hr0 : st.run ≠ 0
        · by_cases hsub : st.run = 1 ∧ st.index_allowed = true
          · have hops : encLoopOps n4 rf n st i (c :: rest) =
                ((encLoopOps n4 rf n ⟨upd st.index
                    (Pix.hash_index (Pix.as_rgba n4 (rf st.px c) 255))
                    (Pix.as_rgba n4 (rf st.px c) 255), rf st.px c,
                    Pix.hash_index (Pix.as_rgba n4 (rf st.px c) 255), 0, rf st.px c, true⟩
                    (i + 1) rest).1,
                 Op.index st.hash_prev ::
                   opOfPixel n4 (rf st.px c) st.px_prev ::
                   (encLoopOps n4 rf n ⟨upd st.index
                     (Pix.hash_index (Pix.as_rgba n4 (rf st.px c) 255))
                     (Pix.as_rgba n4 (rf st.px c) 255), rf st.px c,
                     Pix.hash_index (Pix.as_rgba n4 (rf st.px c) 255), 0, rf st.px c, true⟩
                     (i + 1) rest).2) := by
              simp only [encLoopOps]
              rw [if_neg hpx, if_neg hhit, if_pos hr0, if_pos hsub]
              simp
            rw [hops] at hle ⊢
            rw [if_pos hr0, if_pos hsub]
            simp only [List.flatMap_cons, opBytes_index_eq, QOI_OP_INDEX, Nat.zero_or,
              List.length_append, List.length_cons, List.length_nil, Nat.zero_add] at hle ⊢
            simp only [List.length_cons, List.length_nil, Nat.zero_add,
              wr_ok [st.hash_prev] r out (by show 1 ≤ r; omega)]
            rw [show Pix.encode_into n4 (rf st.px c) st.px_prev =
              Op.bytes (opOfPixel n4 (rf st.px c) st.px_prev) from rfl]
            simp only [hhit, if_false,
              wr_ok (Op.bytes (opOfPixel n4 (rf st.px c) st.px_prev)) (r - 1)
                (out ++ [st.hash_prev]) (by omega)]
            rw [ih _ (i + 1) _ _ (by simp) (hash_index_lt _) (by omega)]
            simp only [Except.ok.injEq, Prod.mk.injEq, Buf.mk.injEq, Option.some.injEq,
              List.append_assoc, List.singleton_append, List.cons_append]
            first
            | rfl
            | omega
            | (refine ⟨⟨?_, by trivial⟩, by trivial⟩; all_goals omega)
            | (refine ⟨?_, by trivial⟩; all_goals omega)
            | (refine ⟨by trivial, ?_⟩; all_goals omega)
          · have hops : encLoopOps n4 rf n st i (c :: rest) =
                ((encLoopOps n4 rf n ⟨upd st.index
                    (Pix.hash_index (Pix.as_rgba n4 (rf st.px c) 255))
                    (Pix.as_rgba n4 (rf st.px c) 255), rf st.px c,
                    Pix.hash_index (Pix.as_rgba n4 (rf st.px c) 255), 0, rf st.px c, true⟩
                    (i + 1) rest).1,
                 Op.run st.run ::
                   opOfPixel n4 (rf st.px c) st.px_prev ::
                   (encLoopOps n4 rf n ⟨upd st.index
                     (Pix.hash_index (Pix.as_rgba n4 (rf st.px c) 255))
                     (Pix.as_rgba n4 (rf st.px c) 255), rf st.px c,
                     Pix.hash_index (Pix.as_rgba n4 (rf st.px c) 255), 0, rf st.px c, true⟩
                     (i + 1) rest).2) := by
              simp only [encLoopOps]
              rw [if_neg hpx, if_neg hhit, if_pos hr0, if_neg hsub]
              simp
            rw [hops] at hle ⊢
            rw [if_pos hr0, if_neg hsub]
            simp only [List.flatMap_cons, opBytes_run_eq,
              List.length_append, List.length_cons, List.length_nil, Nat.zero_add] at hle ⊢
            simp only [QOI_OP_RUN]
            rw [lor_192 (st.run - 1) (by omega)]
            simp only [List.length_cons, List.length_nil, Nat.zero_add,
              wr_ok [192 + (st.run - 1)] r out (by show 1 ≤ r; omega)]
            rw [show Pix.encode_into n4 (rf st.px c) st.px_prev =
              Op.bytes (opOfPixel n4 (rf st.px c) st.px_prev) from rfl]
            simp only [hhit, if_false,
              wr_ok (Op.bytes (opOfPixel n4 (rf st.px c) st.px_prev)) (r - 1)
                (out ++ [192 + (st.run - 1)]) (by omega)]
            rw [ih _ (i + 1) _ _ (by simp) (hash_index_lt _) (by omega)]
            simp only [Except.ok.injEq, Prod.mk.injEq, Buf.mk.injEq, Option.some.injEq,
              List.append_assoc, List.singleton_append, List.cons_append]
            first
            | rfl
            | omega
            | (refine ⟨⟨?_, by trivial⟩, by trivial⟩; all_goals omega)
            | (refine ⟨?_, by trivial⟩; all_goals omega)
            | (refine ⟨by trivial, ?_⟩; all_goals omega)
        · have hops : encLoopOps n4 rf n st i (c :: rest) =
              ((encLoopOps n4 rf n ⟨upd st.index
                  (Pix.hash_index (Pix.as_rgba n4 (rf st.px c) 255))
                  (Pix.as_rgba n4 (rf st.px c) 255), rf st.px c,
                  Pix.hash_index (Pix.as_rgba n4 (rf st.px c) 255), 0, rf st.px c, true⟩
                  (i + 1) rest).1,
               opOfPixel n4 (rf st.px c) st.px_prev ::
                 (encLoopOps n4 rf n ⟨upd st.index
                   (Pix.hash_index (Pix.as_rgba n4 (rf st.px c) 255))
                   (Pix.as_rgba n4 (rf st.px c) 255), rf st.px c,
                   Pix.hash_index (Pix.as_rgba n4 (rf st.px c) 255), 0, rf st.px c, true⟩
                   (i + 1) rest).2) := by
            simp only [encLoopOps]
            rw [if_neg hpx, if_neg hhit, if_neg hr0]
            simp
          rw [hops] at hle ⊢
          rw [if_neg hr0]
          simp only [List.flatMap_cons, List.length_append] at hle ⊢
          rw [show Pix.encode_into n4 (rf st.px c) st.px_prev =
            Op.bytes (opOfPixel n4 (rf st.px c) st.px_prev) from rfl]
          simp only [hhit, if_false,
            wr_ok (Op.bytes (opOfPixel n4 (rf st.px c) st.px_prev)) r out (by omega)]
          rw [ih _ (i + 1) _ _ (by simp) (hash_index_lt _) (by omega)]
          simp only [Except.ok.injEq, Prod.mk.injEq, Buf.mk.injEq, Option.some.injEq,
            List.append_assoc, List.singleton_append, List.cons_append]
          first
          | rfl
          | omega
          | (refine ⟨⟨?_, by trivial⟩, by trivial⟩; all_goals omega)
          | (refine ⟨?_, by trivial⟩; all_goals omega)
          | (refine ⟨by trivial, ?_⟩; all_goals omega)


/-- `chunksExactGo` is fuel-invariant once the fuel exceeds the input length. -/
theorem chunksExactGo_fuel {α : Type} (n : Nat) :
    ∀ (f1 f2 : Nat) (l : List α), l.length < f1 → l.length < f2 →
      chunksExactGo f1 n l = chunksExactGo f2 n l := by
  intro f1
  induction f1 with
  | zero => intro f2 l h1 _h2; omega
  | succ f1 ih =>
    intro f2 l h1 h2
    match f2 with
    | 0 => omega
    | f2 + 1 =>
      simp only [chunksExactGo]
      by_cases hc : 0 < n ∧ n ≤ l.length
      · rw [if_pos hc, if_pos hc, ih f2 (l.drop n) (by simp; omega) (by simp; omega)]
      · rw [if_neg hc, if_neg hc]

/-- Unfolding equation for `chunksExact` in the productive case. -/
theorem chunksExact_cons {α : Type} (n : Nat) (l : List α) (h0 : 0 < n)
    (hle : n ≤ l.length) :
    chunksExact n l = l.take n :: chunksExact n (l.drop n) := by
  show chunksExactGo (l.length + 1) n l = _
  rw [show chunksExactGo (l.length + 1) n l =
      if 0 < n ∧ n ≤ l.length then l.take n :: chunksExactGo l.length n (l.drop n)
      else [] from rfl]
  rw [if_pos ⟨h0, hle⟩]
  rw [chunksExactGo_fuel n l.length ((l.drop n).length + 1) (l.drop n)
    (by simp; omega) (by omega)]
  rfl

/-- `chunks_exact` on input of length `k * n` yields `k` chunks of length `n`
that concatenate back to the input. -/
theorem chunksExact_full {α : Type} (n : Nat) (hn : 0 < n) :
    ∀ (k : Nat) (l : List α), l.length = k * n →
      (chunksExact n l).length = k ∧ (chunksExact n l).flatten = l ∧
      ∀ ch ∈ chunksExact n l, ch.length = n := by
  intro k
  induction k with
  | zero =>
    intro l hl
    have hnil : l = [] := List.eq_nil_of_length_eq_zero (by omega)
    subst hnil
    have : chunksExact n ([] : List α) = [] := by
      show chunksExactGo 1 n [] = []
      simp only [chunksExactGo]
      rw [if_neg (by simp; omega)]
    rw [this]
    simp
  | succ k ih =>
    intro l hl
    have hle : n ≤ l.length := by
      rw [hl]; calc n = 1 * n := by omega
        _ ≤ (k + 1) * n := Nat.mul_le_mul_right n (by omega)
    rw [chunksExact_cons n l hn hle]
    have hdrop : (l.drop n).length = k * n := by simp [hl]; ring_nf; omega
    obtain ⟨h1, h2, h3⟩ := ih (l.drop n) hdrop
    refine ⟨by simp [h1], ?_, ?_⟩
    · simp only [List.flatten_cons, h2, List.take_append_drop]
    · intro ch hch
      rcases List.mem_cons.mp hch with h | h
      · subst h; simp [List.length_take]; omega
      · exact h3 ch h

/-- The threaded pixel sequence has one pixel per chunk. -/
theorem pixelsOf_length (rf : Pix → List Nat → Pix) :
    ∀ (chunks : List (List Nat)) (p : Pix),
      (pixelsOf rf p chunks).length = chunks.length := by
  intro chunks
  induction chunks with
  | nil => intro p; simp [pixelsOf]
  | cons c rest ih => intro p; simp [pixelsOf, ih]

/-- Writing back the pixels read from a chunk list recovers the chunks when
the per-chunk write inverts the read. -/
theorem pixelsOf_flatMap (c : Nat) (rf : Pix → List Nat → Pix)
    (H : ∀ (p : Pix) (ch : List Nat), ch.length = c → writePix c (rf p ch) = ch) :
    ∀ (chunks : List (List Nat)) (p : Pix), (∀ ch ∈ chunks, ch.length = c) →
      (pixelsOf rf p chunks).flatMap (writePix c) = chunks.flatten := by
  intro chunks
  induction chunks with
  | nil => intro p _h; simp [pixelsOf]
  | cons ch rest ih =>
    intro p hlen
    simp only [pixelsOf, List.flatMap_cons, List.flatten_cons]
    rw [H p ch (hlen ch (List.mem_cons_self ch rest)),
      ih (rf p ch) (fun ch' h' => hlen ch' (List.mem_cons_of_mem ch h'))]

/-- `getD` with an in-range default stays in range. -/
theorem getD_lt (l : List Nat) (hb : ∀ x ∈ l, x < 256) :
    ∀ i, l.getD i 0 < 256 := by
  induction l with
  | nil => intro i; simp [List.getD]
  | cons a l ih =>
    intro i
    match i with
    | 0 => exact hb a (List.mem_cons_self a l)
    | i + 1 =>
      show l.getD i 0 < 256
      exact ih (fun x hx => hb x (List.mem_cons_of_mem a hx)) i

/-- Properties of a `flatMap` whose function is uniform on the rows. -/
theorem flatMap_uniform {α : Type} (g : List α → List (List α)) (m cnt : Nat) :
    ∀ (rows : List (List α)),
      (∀ row ∈ rows, (g row).length = cnt ∧ (g row).flatten = row ∧
        ∀ ch ∈ g row, ch.length = m) →
      (rows.flatMap g).length = rows.length * cnt ∧
      (rows.flatMap g).flatten = rows.flatten ∧
      ∀ ch ∈ rows.flatMap g, ch.length = m := by
  intro rows
  induction rows with
  | nil => intro _h; simp
  | cons row rest ih =>
    intro h
    obtain ⟨h1, h2, h3⟩ := h row (List.mem_cons_self row rest)
    obtain ⟨g1, g2, g3⟩ := ih (fun r hr => h r (List.mem_cons_of_mem row hr))
    refine ⟨?_, ?_, ?_⟩
    · simp [g1, h1]; ring
    · simp [List.flatten_append, h2, g2]
    · intro ch hch
      rcases (by simpa using hch :
          ch ∈ g row ∨ ∃ a ∈ rest, ch ∈ g a) with hc | ⟨a, ha, hc⟩
      · exact h3 ch hc
      · exact g3 ch (List.mem_flatMap.mpr ⟨a, ha, hc⟩)

/-- The canonical-layout pixel chunks: for `stride = w * c` and data of length
`w * h * c`, the chunk list has `w * h` entries of length `c` each, and they
concatenate back to the data. -/
theorem pixelChunks_canonical (c w h : Nat) (hc : 0 < c) (hw : 0 < w)
    (data : List Nat) (hlen : data.length = w * h * c) :
    (pixelChunks (w * c) c w h data).length = w * h ∧
    (pixelChunks (w * c) c w h data).flatten = data ∧
    ∀ ch ∈ pixelChunks (w * c) c w h data, ch.length = c := by
  have hwc : 0 < w * c := Nat.mul_pos hw hc
  obtain ⟨r1, r2, r3⟩ := chunksExact_full (w * c) hwc h data (by rw [hlen]; ring)
  unfold pixelChunks
  rw [show (chunksExact (w * c) data).take h = chunksExact (w * c) data from by
    first
    | (rw [← r1]; exact List.take_length _)
    | rw [← r1]]
  have hrows : ∀ row ∈ chunksExact (w * c) data,
      (chunksExact c (row.take (w * c))).length = w ∧
      (chunksExact c (row.take (w * c))).flatten = row ∧
      ∀ ch ∈ chunksExact c (row.take (w * c)), ch.length = c := by
    intro row hrow
    have hrl : row.length = w * c := r3 row hrow
    rw [show row.take (w * c) = row from by
      first
      | (rw [← hrl]; exact List.take_length row)
      | rw [← hrl]]
    exact chunksExact_full c hc w row (by rw [hrl])
  obtain ⟨f1, f2, f3⟩ :=
    flatMap_uniform (fun row => chunksExact c (row.take (w * c))) c w
      (chunksExact (w * c) data) hrows
  exact ⟨by rw [f1, r1]; ring, by rw [f2, r2], f3⟩

/-- The encoded header is exactly `QOI_HEADER_SIZE` bytes. -/
theorem header_encode_length (hd : Header) :
    (Header.encode hd).length = QOI_HEADER_SIZE := by
  simp [Header.encode, be32, QOI_HEADER_SIZE]

/-- Reading back a big-endian 32-bit value. -/
theorem readBe32_be32 (v : Nat) (rest : List Nat) (hv : v < 2 ^ 32) :
    readBe32 (be32 v ++ rest) = v := by
  simp only [be32, List.cons_append, List.nil_append]
  rw [show readBe32 (v / 2 ^ 24 % 256 :: v / 2 ^ 16 % 256 :: v / 2 ^ 8 % 256 ::
    v % 256 :: rest) = v / 2 ^ 24 % 256 * 2 ^ 24 + v / 2 ^ 16 % 256 * 2 ^ 16 +
    v / 2 ^ 8 % 256 * 2 ^ 8 + v % 256 from rfl]
  omega

/-- Decoding an encoded valid header returns it with the remaining bytes. -/
theorem decodeHeader_encode (hd : Header) (rest : List Nat)
    (hw32 : hd.width < 2 ^ 32) (hh32 : hd.height < 2 ^ 32)
    (hch : hd.channels = 3 ∨ hd.channels = 4)
    (hcs : hd.colorspace = 0 ∨ hd.colorspace = 1)
    (hw0 : hd.width ≠ 0) (hh0 : hd.height ≠ 0)
    (hmax : hd.width * hd.height ≤ QOI_PIXELS_MAX) :
    decodeHeader (Header.encode hd ++ rest) = .ok (hd, rest) := by
  obtain ⟨w, h, c, cs⟩ := hd
  simp only [Header.encode, be32] at *
  simp only [decodeHeader, List.cons_append, List.nil_append, List.length_cons,
    QOI_HEADER_SIZE]
  rw [if_neg (by simp <;> omega)]
  rw [if_neg (by simp)]
  simp only [List.drop_succ_cons, List.drop_zero]
  rw [show readBe32 (w / 2 ^ 24 % 256 :: w / 2 ^ 16 % 256 :: w / 2 ^ 8 % 256 ::
      w % 256 :: h / 2 ^ 24 % 256 :: h / 2 ^ 16 % 256 :: h / 2 ^ 8 % 256 ::
      h % 256 :: c :: cs :: rest) = w from by
    rw [show readBe32 (w / 2 ^ 24 % 256 :: w / 2 ^ 16 % 256 :: w / 2 ^ 8 % 256 ::
      w % 256 :: h / 2 ^ 24 % 256 :: h / 2 ^ 16 % 256 :: h / 2 ^ 8 % 256 ::
      h % 256 :: c :: cs :: rest) = w / 2 ^ 24 % 256 * 2 ^ 24 +
      w / 2 ^ 16 % 256 * 2 ^ 16 + w / 2 ^ 8 % 256 * 2 ^ 8 + w % 256 from rfl]
    omega]
  rw [show readBe32 (h / 2 ^ 24 % 256 :: h / 2 ^ 16 % 256 :: h / 2 ^ 8 % 256 ::
      h % 256 :: c :: cs :: rest) = h from by
    rw [show readBe32 (h / 2 ^ 24 % 256 :: h / 2 ^ 16 % 256 :: h / 2 ^ 8 % 256 ::
      h % 256 :: c :: cs :: rest) = h / 2 ^ 24 % 256 * 2 ^ 24 +
      h / 2 ^ 16 % 256 * 2 ^ 16 + h / 2 ^ 8 % 256 * 2 ^ 8 + h % 256 from rfl]
    omega]
  rw [show (List.getD (113 :: 111 :: 105 :: 102 :: w / 2 ^ 24 % 256 ::
      w / 2 ^ 16 % 256 :: w / 2 ^ 8 % 256 :: w % 256 :: h / 2 ^ 24 % 256 ::
      h / 2 ^ 16 % 256 :: h / 2 ^ 8 % 256 :: h % 256 :: c :: cs :: rest) 12 0) = c
    from rfl]
  rw [show (List.getD (113 :: 111 :: 105 :: 102 :: w / 2 ^ 24 % 256 ::
      w / 2 ^ 16 % 256 :: w / 2 ^ 8 % 256 :: w % 256 :: h / 2 ^ 24 % 256 ::
      h / 2 ^ 16 % 256 :: h / 2 ^ 8 % 256 :: h % 256 :: c :: cs :: rest) 13 0) = cs
    from rfl]
  rw [if_neg (by omega)]
  rw [if_neg (by omega)]
  rw [if_neg (by simp <;> omega)]
  rw [if_neg (by omega)]



/-- Core of the round trip with the canonical stride: `encode_impl` writes the
serialized opcode stream plus the padding within the buffer bound, and the
decoder loop reads the stream back to pixels that serialize to the original
data. -/
theorem codec_core (n4 : Bool) (rf : Pix → List Nat → Pix) (c w h : Nat)
    (data : List Nat)
    (hcpp : (if n4 then 5 else 4) = c + 1)
    (hw : 0 < w) (hh : 0 < h) (hc0 : 0 < c)
    (hlen : data.length = w * h * c)
    (hbytes : ∀ b ∈ data, b < 256)
    (Hwf : ∀ q ch, WFPix q → (∀ x ∈ ch, x < 256) → WFPix (rf q ch))
    (Halpha : n4 = false → ∀ q ch, (rf q ch).a = q.a)
    (Hwrite : ∀ (p : Pix) (ch : List Nat), ch.length = c → writePix c (rf p ch) = ch) :
    ∃ body pxs,
      encodeImpl n4 rf ⟨some (w * h * (c + 1) + QOI_PADDING_SIZE), []⟩ data w h (w * c) c =
        .ok (body.length,
          ⟨some (w * h * (c + 1) + QOI_PADDING_SIZE - body.length), body⟩) ∧
      decodeLoop decInit body (w * h) = .ok (pxs, QOI_PADDING) ∧
      pxs.flatMap (writePix c) = data := by
  obtain ⟨hcount, hflat, hchlen⟩ := pixelChunks_canonical c w h hc0 hw data hlen
  have hbytes_ch : ∀ ch ∈ pixelChunks (w * c) c w h data, ∀ x ∈ ch, x < 256 := by
    intro ch hch x hx
    exact hbytes x (hflat ▸ List.mem_flatten.mpr ⟨ch, hch, hx⟩)
  have hinv : EInv n4 encInit encInit.index encInit.px_prev :=
    { tbl := rfl
      prev := rfl
      run_le := Nat.zero_le 61
      hash_lt := hash_index_lt _
      wf_prev := ⟨by decide, by decide, by decide, by decide⟩
      wf_px := ⟨by decide, by decide, by decide, by decide⟩
      alpha := fun _ => ⟨rfl, rfl⟩
      allowed := fun hfalse => absurd hfalse (by decide) }
  obtain ⟨hwf_ops, hrun⟩ :=
    encDecSync n4 rf Hwf Halpha (w * h) (pixelChunks (w * c) c w h data) encInit
      encInit.index encInit.px_prev 0 (by omega) (fun _ => rfl) hinv hbytes_ch
  have hsum :
      sumEmits (encLoopOps n4 rf (w * h) encInit 0 (pixelChunks (w * c) c w h data)).2 =
        w * h := by
    have hrl := runOps_len
      (encLoopOps n4 rf (w * h) encInit 0 (pixelChunks (w * c) c w h data)).2
      encInit.index encInit.px_prev
    rw [hrun] at hrl
    simp only [show encInit.run = 0 from rfl, List.replicate_zero, List.nil_append,
      List.length_append, List.length_replicate] at hrl
    rw [pixelsOf_length, hcount] at hrl
    omega
  have hblen :
      (opsBytes (encLoopOps n4 rf (w * h) encInit 0
        (pixelChunks (w * c) c w h data)).2).length ≤ (c + 1) * (w * h) := by
    have hle := opsBytes_length_le n4 (c + 1) hcpp.symm
      (encLoopOps n4 rf (w * h) encInit 0 (pixelChunks (w * c) c w h data)).2 hwf_ops
    rw [hsum] at hle
    exact hle
  have hcomm : (c + 1) * (w * h) = w * h * (c + 1) := Nat.mul_comm _ _
  have henc := encLoopB_eq_ops n4 rf (w * h) (pixelChunks (w * c) c w h data)
    encInit 0 (w * h * (c + 1) + QOI_PADDING_SIZE) [] (Nat.zero_le 61)
    (hash_index_lt _) (by rw [show QOI_PADDING_SIZE = 8 from rfl] at *; omega)
  have hdec := decodeLoop_ops n4
    (encLoopOps n4 rf (w * h) encInit 0 (pixelChunks (w * c) c w h data)).2
    encInit.index encInit.px_prev QOI_PADDING hwf_ops
  rw [hsum, hrun] at hdec
  simp only [show encInit.run = 0 from rfl, List.replicate_zero, List.nil_append] at hdec
  refine ⟨opsBytes (encLoopOps n4 rf (w * h) encInit 0
      (pixelChunks (w * c) c w h data)).2 ++ QOI_PADDING,
    pixelsOf rf encInit.px (pixelChunks (w * c) c w h data), ?_, ?_, ?_⟩
  · simp only [encodeImpl, henc,
      wr_ok QOI_PADDING
        (w * h * (c + 1) + QOI_PADDING_SIZE -
          (opsBytes (encLoopOps n4 rf (w * h) encInit 0
            (pixelChunks (w * c) c w h data)).2).length)
        ([] ++ opsBytes (encLoopOps n4 rf (w * h) encInit 0
          (pixelChunks (w * c) c w h data)).2)
        (by rw [show QOI_PADDING.length = 8 from rfl,
              show QOI_PADDING_SIZE = 8 from rfl] at *; omega)]
    simp only [List.nil_append, List.length_append, Except.ok.injEq, Prod.mk.injEq,
      Buf.mk.injEq, Option.some.injEq, List.length_nil]
    refine ⟨?_, ?_, by first | rfl | trivial⟩
    · rw [show QOI_PADDING.length = 8 from rfl]; omega
    · rw [show QOI_PADDING.length = 8 from rfl,
        show QOI_PADDING_SIZE = 8 from rfl] at *
      omega
  · rw [show decInit = (⟨encInit.index, encInit.px_prev, 0⟩ : DecState) from rfl]
    exact hdec
  · exact (pixelsOf_flatMap c rf Hwrite (pixelChunks (w * c) c w h data)
      encInit.px hchlen).trans hflat



/-- Round trip at the `Encoder` level: a canonical-layout encoder (stride
`w * c`, stored header `⟨w, h, c, 0⟩`) encodes to a vector that decodes back
to the original data. -/
theorem encoder_roundtrip (n4 : Bool) (rf : Pix → List Nat → Pix) (c w h : Nat)
    (data : List Nat) (rc : RawChannels)
    (hdisp : ∀ buf, Encoder.encode_impl_all ⟨data, w * c, rc, ⟨w, h, c, 0⟩⟩ buf =
      encodeImpl n4 rf buf data w h (w * c) c)
    (hcpp : (if n4 then 5 else 4) = c + 1)
    (hw : 0 < w) (hh : 0 < h) (hw32 : w < 2 ^ 32) (hh32 : h < 2 ^ 32)
    (hmax : w * h ≤ QOI_PIXELS_MAX) (hc34 : c = 3 ∨ c = 4)
    (hlen : data.length = w * h * c)
    (hbytes : ∀ b ∈ data, b < 256)
    (Hwf : ∀ q ch, WFPix q → (∀ x ∈ ch, x < 256) → WFPix (rf q ch))
    (Halpha : n4 = false → ∀ q ch, (rf q ch).a = q.a)
    (Hwrite : ∀ (p : Pix) (ch : List Nat), ch.length = c → writePix c (rf p ch) = ch) :
    ∃ out, Encoder.encode_to_vec ⟨data, w * c, rc, ⟨w, h, c, 0⟩⟩ = .ok out ∧
      decode_to_vec out = .ok (⟨w, h, c, 0⟩, data) := by
  have hc0 : 0 < c := by omega
  obtain ⟨body, pxs, he, hd, hfm⟩ :=
    codec_core n4 rf c w h data hcpp hw hh hc0 hlen hbytes Hwf Halpha Hwrite
  have hreq : Encoder.required_buf_len ⟨data, w * c, rc, ⟨w, h, c, 0⟩⟩ =
      QOI_HEADER_SIZE + w * h * (c + 1) + QOI_PADDING_SIZE := rfl
  refine ⟨Header.encode ⟨w, h, c, 0⟩ ++ body, ?_, ?_⟩
  · simp only [Encoder.encode_to_vec, Encoder.encode_to_buf, hreq,
      List.length_replicate]
    rw [if_neg (by omega)]
    rw [hdisp]
    rw [show QOI_HEADER_SIZE + w * h * (c + 1) + QOI_PADDING_SIZE - QOI_HEADER_SIZE =
      w * h * (c + 1) + QOI_PADDING_SIZE from by omega]
    simp only [he]
    rw [List.take_left' (by rw [List.length_append, header_encode_length])]
  · simp only [decode_to_vec,
      decodeHeader_encode ⟨w, h, c, 0⟩ body hw32 hh32 hc34 (Or.inl rfl)
        (Nat.pos_iff_ne_zero.mp hw) (Nat.pos_iff_ne_zero.mp hh) hmax]
    rw [show (⟨w, h, c, 0⟩ : Header).n_pixels = w * h from rfl]
    simp only [hd]
    rw [if_pos (show QOI_PADDING.take 8 = QOI_PADDING from rfl)]
    rw [hfm]



/-- A list of length 4 is a 4-element literal. -/
theorem exists_four {α : Type} (l : List α) (h : l.length = 4) :
    ∃ a b c d, l = [a, b, c, d] := by
  cases l with
  | nil => simp at h
  | cons a t =>
    have ht : t.length = 3 := by simpa using h
    obtain ⟨b, c, d, rfl⟩ := List.length_eq_three.mp ht
    exact ⟨a, b, c, d, rfl⟩

/-- C5: confirmed.  For valid dimensions, channels 3 or 4, and byte data of
length `w * h * channels`, `encode_to_vec` succeeds and `decode_to_vec` on its
output returns the stored header `⟨w, h, channels, 0⟩` together with exactly
the original pixel data. -/
theorem c5_encode_decode_roundtrip (w h c : Nat) (data : List Nat)
    (hw : 0 < w) (hh : 0 < h) (hw32 : w < 2 ^ 32) (hh32 : h < 2 ^ 32)
    (hmax : w * h ≤ QOI_PIXELS_MAX) (hc34 : c = 3 ∨ c = 4)
    (hlen : data.length = w * h * c) (hbytes : ∀ b ∈ data, b < 256) :
    ∃ out, encode_to_vec data w h = .ok out ∧
      decode_to_vec out = .ok (⟨w, h, c, 0⟩, data) := by
  have hwh : 0 < w * h := Nat.mul_pos hw hh
  have htn : Header.try_new w h 3 0 = .ok ⟨w, h, 3, 0⟩ := by
    unfold Header.try_new
    rw [if_neg (by omega), if_neg (by omega), if_neg (by simp), if_neg (by simp)]
  rcases hc34 with hc | hc <;> subst hc
  · have hdiv : data.length / (w * h) = 3 := by
      rw [hlen]; exact Nat.mul_div_cancel_left 3 hwh
    have hnew : Encoder.new data w h = .ok ⟨data, w * 3, .Rgb, ⟨w, h, 3, 0⟩⟩ := by
      simp only [Encoder.new, htn]
      rw [show (⟨w, h, 3, 0⟩ : Header).n_pixels = w * h from rfl]
      rw [hdiv]
      rw [if_neg (by omega)]
      rfl
    obtain ⟨out, he, hdx⟩ :=
      encoder_roundtrip false (fun p c => p.read3 c) 3 w h data .Rgb
        (fun _ => rfl) rfl hw hh hw32 hh32 hmax (Or.inl rfl) hlen hbytes
        (fun q ch hq hb => ⟨getD_lt ch hb 0, getD_lt ch hb 1, getD_lt ch hb 2, hq.2.2.2⟩)
        (fun _ _ _ => rfl)
        (fun p ch hch => by
          obtain ⟨x, y, z, rfl⟩ := List.length_eq_three.mp hch
          rfl)
    refine ⟨out, ?_, hdx⟩
    simp only [encode_to_vec, hnew]
    exact he
  · have hdiv : data.length / (w * h) = 4 := by
      rw [hlen]; exact Nat.mul_div_cancel_left 4 hwh
    have hnew : Encoder.new data w h = .ok ⟨data, w * 4, .Rgba, ⟨w, h, 4, 0⟩⟩ := by
      simp only [Encoder.new, htn]
      rw [show (⟨w, h, 3, 0⟩ : Header).n_pixels = w * h from rfl]
      rw [hdiv]
      rw [if_neg (by omega)]
      rfl
    obtain ⟨out, he, hdx⟩ :=
      encoder_roundtrip true (fun _p c => Pix.read4 c) 4 w h data .Rgba
        (fun _ => rfl) rfl hw hh hw32 hh32 hmax (Or.inr rfl) hlen hbytes
        (fun q ch hq hb =>
          ⟨getD_lt ch hb 0, getD_lt ch hb 1, getD_lt ch hb 2, getD_lt ch hb 3⟩)
        (fun hfalse => nomatch hfalse)
        (fun p ch hch => by
          obtain ⟨x, y, z, u, rfl⟩ := exists_four ch hch
          rfl)
    refine ⟨out, ?_, hdx⟩
    simp only [encode_to_vec, hnew]
    exact he

/-- C5 witness: the 1×1 3-channel image `[10, 20, 30]` round-trips. -/
theorem c5_encode_decode_roundtrip_witness :
    ∃ out, encode_to_vec [10, 20, 30] 1 1 = .ok out ∧
      decode_to_vec out = .ok (⟨1, 1, 3, 0⟩, [10, 20, 30]) :=
  c5_encode_decode_roundtrip 1 1 3 [10, 20, 30] (by decide) (by decide)
    (by decide) (by decide) (by decide) (Or.inl rfl) (by decide) (by decide)

end Qoi
